import Mathlib

/-!
# Verification of the tinyspline B-spline core (`src/tinyspline.c`)

A shallow embedding of the De Boor evaluation engine and the structural
transforms built on it (knot insertion, splitting, Bézier decomposition).
Machine `float` values are modelled by exact rationals `ℚ`; `size_t`/`int`
index arithmetic is modelled by `ℤ`/`ℕ` following the signed comparisons the
C code actually performs (the local convenience variables `k`, `s`, `fst`,
`lst` are declared `int` in the source).  `malloc` failure is treated as an
external collaborator that never fails, as the specification's §1 allows.
Fallible operations return `Except tsError`.
-/

set_option linter.unusedVariables false

/-- Modelled from the spec: the absolute tolerance `FLT_MAX_ABS_ERROR` is
defined in the header `tinyspline.h`, which is not part of `src/`; the spec
describes it as a "small epsilon" for the absolute comparison. -/
def FLT_MAX_ABS_ERROR : ℚ := 1 / 10000000

/-- Modelled from the spec: the relative tolerance `FLT_MAX_REL_ERROR` is
defined in the header `tinyspline.h`, which is not part of `src/`; the spec
describes the fallback comparison as "relative tolerance against the larger
magnitude". -/
def FLT_MAX_REL_ERROR : ℚ := 1 / 100000

/-- `ts_fequals` (tinyspline.c, lines 667-676): tolerant float equality.
`|x-y| < FLT_MAX_ABS_ERROR`, else the relative error against the operand of
larger magnitude is compared with `FLT_MAX_REL_ERROR`. -/
def ts_fequals (x y : ℚ) : Bool :=
  if |x - y| < FLT_MAX_ABS_ERROR then true
  else
    let r : ℚ := if |x| > |y| then |(x - y) / x| else |(x - y) / y|
    decide (r ≤ FLT_MAX_REL_ERROR)

/-- Error codes of `tinyspline.h` (modelled; the header is not in `src/`,
but every code is named by the `return` statements of `tinyspline.c`). -/
inductive tsError where
  | TS_MALLOC
  | TS_DIM_ZERO
  | TS_DEG_GE_NCTRLP
  | TS_U_UNDEFINED
  | TS_MULTIPLICITY
deriving DecidableEq, Repr

/-- The `tsBSpline` struct: degree, order, dimension, counts and the two flat
backing sequences (control points are stored point-major, `dim` floats per
point). -/
structure tsBSpline where
  deg : ℕ
  order : ℕ
  dim : ℕ
  n_ctrlp : ℕ
  n_knots : ℕ
  ctrlp : List ℚ
  knots : List ℚ
deriving DecidableEq, Repr

/-- The all-zero `tsBSpline` produced by `ts_bspline_default`. -/
def ts_bspline_default : tsBSpline :=
  ⟨0, 0, 0, 0, 0, [], []⟩

/-- The data-model invariants of a curve (spec §3): positive dimension,
`degree < numControlPoints`, `order = degree + 1`,
`numKnots = numControlPoints + order`, backing sequences of the stated
lengths, and a non-decreasing knot vector. -/
def tsBSpline.valid (b : tsBSpline) : Prop :=
  1 ≤ b.dim ∧ b.deg < b.n_ctrlp ∧ b.order = b.deg + 1 ∧
  b.n_knots = b.n_ctrlp + b.order ∧
  b.ctrlp.length = b.n_ctrlp * b.dim ∧
  b.knots.length = b.n_knots ∧
  b.knots.Sorted (· ≤ ·)

instance (b : tsBSpline) : Decidable b.valid := by
  unfold tsBSpline.valid; infer_instance

/-- The `tsDeBoorNet` struct.  `k` and `h` are modelled by `ℤ`: the code
decrements `k` below zero when `u` precedes every knot, and reads the fields
back into `int` locals for all index arithmetic. -/
structure tsDeBoorNet where
  k : ℤ
  s : ℕ
  h : ℤ
  deg : ℕ
  dim : ℕ
  n_affected : ℕ
  n_points : ℕ
  last_idx : ℕ
  points : List ℚ
deriving DecidableEq, Repr

/-- Break condition of the knot-scan loop (tinyspline.c, lines 185-192): the
scan stops at the first knot that is strictly greater than `u` and not
tolerantly equal to it (`ts_fequals` is tested first). -/
def breakAt (u x : ℚ) : Bool :=
  !ts_fequals u x && decide (u < x)

/-- Index at which the knot-scan loop of `ts_bspline_evaluate` stops: the
first index whose knot satisfies `breakAt`, or the number of knots if the
loop runs to the end.  Mirrors `for (k = 0; k < n_knots; k++) { ...
else if (u < uk) break; }`. -/
def kstopOf (u : ℚ) : List ℚ → ℕ
  | [] => 0
  | x :: xs => if breakAt u x then 0 else kstopOf u xs + 1

/-- The multiplicity counter of the scan loop: the number of scanned indices
(strictly before the break index) whose knot is tolerantly equal to `u`. -/
def scanS (u : ℚ) (knots : List ℚ) : ℕ :=
  ((List.range (kstopOf u knots)).filter
    (fun j => ts_fequals u (knots.getD j 0))).length

/-- Blending factor of the De Boor refinement (tinyspline.c, line 285-286):
`a = (u - knots[i]) / (knots[i+deg-r+1] - knots[i])`.  The index
`i+deg-r+1` is written `i+deg+1-r`; in every reachable state `r ≤ deg`
so the natural subtraction agrees with the C `int` arithmetic. -/
def aFactor (u : ℚ) (knots : List ℚ) (deg r i : ℕ) : ℚ :=
  let ui := knots.getD i 0
  (u - ui) / (knots.getD (i + deg + 1 - r) 0 - ui)

/-- One interpolation step of the inner loop (tinyspline.c, lines 287-293):
appends the `dim` components `a_hat * points[idx_l+n] + a * points[idx_r+n]`
and advances both read indices by `dim`.  The state is
`(points, idx_l, idx_r)`. -/
def lerpStep (a : ℚ) (dim : ℕ) (st : List ℚ × ℕ × ℕ) : List ℚ × ℕ × ℕ :=
  (st.1 ++ (List.range dim).map
      (fun n => (1 - a) * st.1.getD (st.2.1 + n) 0 + a * st.1.getD (st.2.2 + n) 0),
   st.2.1 + dim, st.2.2 + dim)

/-- One refinement round `r` (tinyspline.c, lines 282-297): the inner loop
runs `i` from `fst+r` to `lst`, then both read indices skip one extra
point (`idx_l += dim; idx_r += dim`). -/
def deBoorRound (u : ℚ) (knots : List ℚ) (deg dim fstN lstN r : ℕ)
    (st : List ℚ × ℕ × ℕ) : List ℚ × ℕ × ℕ :=
  let st2 := (List.range (lstN + 1 - (fstN + r))).foldl
    (fun acc j => lerpStep (aFactor u knots deg r (fstN + r + j)) dim acc) st
  (st2.1, st2.2.1 + dim, st2.2.2 + dim)

/-- The full De Boor refinement loop `for (r = 1; r <= h; r++)`
(tinyspline.c, lines 281-297), started on the copied window with
`idx_l = 0, idx_r = dim`; returns the final flat points buffer. -/
def deBoorRun (u : ℚ) (knots : List ℚ) (deg dim fstN lstN h : ℕ)
    (init : List ℚ) : List ℚ :=
  ((List.range h).foldl
    (fun acc rj => deBoorRound u knots deg dim fstN lstN (rj + 1) acc)
    (init, 0, dim)).1

/-- `ts_bspline_evaluate` (tinyspline.c, lines 173-301).  Returns the success
signal (`0` general case, `1` single boundary point, `2` two verbatim
points) together with the De Boor net, or the error the C code returns.
`malloc` is assumed to succeed. -/
def ts_bspline_evaluate (b : tsBSpline) (u : ℚ) :
    Except tsError (ℕ × tsDeBoorNet) :=
  let kstop := kstopOf u b.knots
  let s := scanS u b.knots
  let k : ℤ := (kstop : ℤ) - 1
  let h : ℤ := (b.deg : ℤ) - (s : ℤ)
  if s > b.order then .error .TS_MULTIPLICITY
  else if s = b.order then
    let fst : ℤ := k - (s : ℤ)
    let snd : ℤ := fst + 1
    if fst < 0 ∨ snd ≥ (b.n_ctrlp : ℤ) then
      let pts := if fst < 0 then b.ctrlp.take b.dim
                 else (b.ctrlp.drop (fst.toNat * b.dim)).take b.dim
      .ok (1, ⟨k, s, h, b.deg, b.dim, 1, 1, 0, pts⟩)
    else
      .ok (2, ⟨k, s, h, b.deg, b.dim, 2, 2, b.dim,
        (b.ctrlp.drop (fst.toNat * b.dim)).take (2 * b.dim)⟩)
  else
    let fst : ℤ := k - (b.deg : ℤ)
    let lst : ℤ := k - (s : ℤ)
    if fst < 0 ∨ lst ≥ (b.n_ctrlp : ℤ) then .error .TS_U_UNDEFINED
    else
      let fstN := fst.toNat
      let lstN := lst.toNat
      let N := lstN - fstN + 1
      let n_points := N * (N + 1) / 2
      let init := (b.ctrlp.drop (fstN * b.dim)).take (N * b.dim)
      let pts := deBoorRun u b.knots b.deg b.dim fstN lstN h.toNat init
      .ok (0, ⟨k, s, h, b.deg, b.dim, N, n_points, (n_points - 1) * b.dim, pts⟩)

/-- The triangular De Boor recursion, stated pointwise from the source's
formulas: `dPt 0 j` is the affected control point `fst+j` (row 0 is a copy
of the affected window), and `dPt (r+1) j` blends the two points `j` and
`j+1` of row `r` with the factor `a = (u - knots[i]) / (knots[i+deg-r+1] -
knots[i])` at `i = fst+(r+1)+j`.  Each point is its `dim` components. -/
def dPt (u : ℚ) (knots ctrlp : List ℚ) (deg dim fstN : ℕ) : ℕ → ℕ → List ℚ
  | 0, j => (ctrlp.drop ((fstN + j) * dim)).take dim
  | r + 1, j =>
    let a := aFactor u knots deg (r + 1) (fstN + (r + 1) + j)
    (List.range dim).map (fun n =>
      (1 - a) * (dPt u knots ctrlp deg dim fstN r j).getD n 0 +
        a * (dPt u knots ctrlp deg dim fstN r (j + 1)).getD n 0)

/-- The points of row `r` of the triangular table, in order: row `r` holds
`N - r` points. -/
def dRowPts (u : ℚ) (knots ctrlp : List ℚ) (deg dim fstN N r : ℕ) :
    List (List ℚ) :=
  (List.range (N - r)).map (fun j => dPt u knots ctrlp deg dim fstN r j)

/-- All points of the triangular table for rounds `0..h`, row-major. -/
def dTablePts (u : ℚ) (knots ctrlp : List ℚ) (deg dim fstN N h : ℕ) :
    List (List ℚ) :=
  ((List.range (h + 1)).map
    (fun r => dRowPts u knots ctrlp deg dim fstN N r)).flatten

/-- The flat triangular De Boor table: the concatenation of rows `0..h`. -/
def dTable (u : ℚ) (knots ctrlp : List ℚ) (deg dim fstN N h : ℕ) : List ℚ :=
  (dTablePts u knots ctrlp deg dim fstN N h).flatten

/-- The diagonal-walking copy loops of `ts_bspline_insert_knot` and
`ts_bspline_split` (tinyspline.c, lines 347-371 and 486-497): `n` times,
copy one point (`dim` floats) of `pts` at the float offset `from`, then
`from += stride; stride -= dim`.  State: `(collected, from, stride)`.
Negative offsets do not occur in reachable states. -/
def diagSteps (pts : List ℚ) (dim n : ℕ) (st : List ℚ × ℤ × ℤ) :
    List ℚ × ℤ × ℤ :=
  (List.range n).foldl
    (fun acc _ =>
      (acc.1 ++ (pts.drop acc.2.1.toNat).take dim,
       acc.2.1 + acc.2.2, acc.2.2 - (dim : ℤ))) st

/-- `ts_bspline_insert_knot` (tinyspline.c, lines 303-386): evaluate at `u`,
reject if the resulting multiplicity would exceed the order, then assemble
the refined curve: unaffected left-hand originals, `n` points from the left
diagonal of the net, the whole row `n` of the net, `n` points from the
mirrored right diagonal, the unaffected right-hand originals; the knot
vector receives `n` copies of `u` immediately after index `k`. -/
def ts_bspline_insert_knot (b : tsBSpline) (u : ℚ) (n : ℕ) :
    Except tsError tsBSpline :=
  match ts_bspline_evaluate b u with
  | .error e => .error e
  | .ok (_, net) =>
    if net.s + n > b.order then .error .TS_MULTIPLICITY
    else if b.dim < 1 then .error .TS_DIM_ZERO
    else if b.deg ≥ b.n_ctrlp + n then .error .TS_DEG_GE_NCTRLP
    else
      let deg := b.deg
      let dim := b.dim
      let N := net.n_affected
      let k := net.k
      let A := b.ctrlp.take ((k - (deg : ℤ)).toNat * dim)
      let st1 := diagSteps net.points dim n ([], 0, (N : ℤ) * dim)
      let Cmid := (net.points.drop st1.2.1.toNat).take ((N - n) * dim)
      let st2 := diagSteps net.points dim n
        ([], st1.2.1 - (dim : ℤ), -(((N : ℤ) - (n : ℤ) + 1) * dim))
      let E := b.ctrlp.drop (((k - (deg : ℤ)).toNat + N) * dim)
      let newKnots := (b.knots.take (k + 1).toNat) ++ List.replicate n u ++
        (b.knots.drop (k + 1).toNat)
      .ok ⟨deg, deg + 1, dim, b.n_ctrlp + n, b.n_ctrlp + n + (deg + 1),
        A ++ st1.1 ++ Cmid ++ st2.1 ++ E, newKnots⟩

/-- `ts_bspline_copy` (tinyspline.c, lines 144-171): a deep copy built by
`ts_bspline_new` (whose input checks can fail) followed by copying the
original's control points and knots. -/
def ts_bspline_copy (b : tsBSpline) : Except tsError tsBSpline :=
  if b.dim < 1 then .error .TS_DIM_ZERO
  else if b.deg ≥ b.n_ctrlp then .error .TS_DEG_GE_NCTRLP
  else .ok ⟨b.deg, b.deg + 1, b.dim, b.n_ctrlp, b.n_ctrlp + (b.deg + 1),
    b.ctrlp.take (b.n_ctrlp * b.dim), b.knots.take b.n_knots⟩

/-- `ts_bspline_split` (tinyspline.c, lines 388-572).  Returns the signal
(`0` proper split, `1`/`2` no-op at lower/upper boundary) and the produced
curves.  The three branches follow `ret_eval` after the boundary override of
lines 426-429. -/
def ts_bspline_split (b : tsBSpline) (u : ℚ) :
    Except tsError (ℕ × List tsBSpline) :=
  match ts_bspline_evaluate b u with
  | .error e => .error e
  | .ok (code, net) =>
    let retEval := if ts_fequals (b.knots.getD b.deg 0) u ∨
        ts_fequals (b.knots.getD (b.n_knots - b.order) 0) u then 1 else code
    if retEval = 0 then
      let deg := b.deg
      let dim := b.dim
      let N := net.n_affected
      let k := net.k
      let s : ℤ := (net.s : ℤ)
      let n0 : ℤ := k - (deg : ℤ) + (N : ℤ)
      let n1 : ℤ := (b.n_ctrlp : ℤ) - (k - s) + (N : ℤ) - 1
      if b.dim < 1 then .error .TS_DIM_ZERO
      else if n0 ≤ (deg : ℤ) then .error .TS_DEG_GE_NCTRLP
      else if n1 ≤ (deg : ℤ) then .error .TS_DEG_GE_NCTRLP
      else
        let n0N := n0.toNat
        let n1N := n1.toNat
        let st0 := diagSteps net.points dim N ([], 0, (N : ℤ) * dim)
        let ctrlp0 := b.ctrlp.take ((n0N - N) * dim) ++ st0.1
        let st1 := diagSteps net.points dim N
          ([], ((net.n_points : ℤ) - 1) * dim, -(dim : ℤ))
        let ctrlp1 := st1.1 ++
          ((b.ctrlp.drop ((k - s + 1).toNat * dim)).take ((n1N - N) * dim))
        let knots0 := b.knots.take (k - s + 1).toNat ++ List.replicate b.order u
        let knots1 := List.replicate b.order u ++ b.knots.drop (k + 1).toNat
        .ok (0, [⟨deg, deg + 1, dim, n0N, n0N + (deg + 1), ctrlp0, knots0⟩,
                 ⟨deg, deg + 1, dim, n1N, n1N + (deg + 1), ctrlp1, knots1⟩])
    else if retEval = 1 then
      match ts_bspline_copy b with
      | .error e => .error e
      | .ok c => .ok (if ts_fequals (b.knots.getD b.deg 0) u then 1 else 2, [c])
    else
      let deg := b.deg
      let dim := b.dim
      let n0 : ℤ := net.k - (net.s : ℤ) + 1
      let n1 : ℤ := (b.n_ctrlp : ℤ) - n0
      if b.dim < 1 then .error .TS_DIM_ZERO
      else if n0 ≤ (deg : ℤ) then .error .TS_DEG_GE_NCTRLP
      else if n1 ≤ (deg : ℤ) then .error .TS_DEG_GE_NCTRLP
      else
        let n0N := n0.toNat
        let n1N := n1.toNat
        let nk0 := n0N + (deg + 1)
        let nk1 := n1N + (deg + 1)
        .ok (0, [⟨deg, deg + 1, dim, n0N, nk0,
                  b.ctrlp.take (n0N * dim), b.knots.take nk0⟩,
                 ⟨deg, deg + 1, dim, n1N, nk1,
                  (b.ctrlp.drop (n0N * dim)).take (n1N * dim),
                  (b.knots.drop (b.n_knots - nk1)).take nk1⟩])

/-- The decomposition loop of `ts_bspline_to_bezier` (tinyspline.c, lines
615-638), with explicit fuel.  `none` models undefined behavior: reading
`split.bsplines[1]` after the split sequence has been freed (the C code
frees `split` at the end of every iteration and keeps `current` pointing
into it), reading a second curve that a one-curve split did not produce, or
writing `sequence->bsplines[i]` out of bounds. -/
def toBezierLoop (orig : tsBSpline) :
    ℕ → Option tsBSpline → ℕ → List tsBSpline →
    Option (Except tsError (List tsBSpline))
  | 0, _, _, _ => none
  | fuel + 1, cur?, i, seq =>
    match cur? with
    | none => none
    | some cur =>
      match ts_bspline_split cur (orig.knots.getD orig.order 0) with
      | .error e => some (.error e)
      | .ok (ret, parts) =>
        if ret < 2 then
          match parts.get? 0 with
          | none => none
          | some p0 =>
            if i < seq.length then
              match ts_bspline_copy p0 with
              | .error e => some (.error e)
              | .ok c => toBezierLoop orig fuel none (i + 1) (seq.set i c)
            else none
        else some (.ok seq)

/-- `ts_bspline_to_bezier` (tinyspline.c, lines 604-641): allocate a
sequence of `n_knots - 2*order` default curves and run the split loop on
it. -/
def ts_bspline_to_bezier (fuel : ℕ) (b : tsBSpline) :
    Option (Except tsError (List tsBSpline)) :=
  toBezierLoop b fuel (some b) 0
    (List.replicate (b.n_knots - 2 * b.order) ts_bspline_default)

/-! ## Generic list lemmas for flat, constant-stride buffers -/

/-- Length of a flattened list of equal-length chunks. -/
theorem length_flatten_const {α : Type} {c : ℕ} :
    ∀ (L : List (List α)), (∀ l ∈ L, l.length = c) →
      L.flatten.length = L.length * c := by
  intro L
  induction L with
  | nil => intro _; simp
  | cons l L ih =>
    intro hL
    simp only [List.flatten_cons, List.length_append, List.length_cons]
    rw [ih (fun x hx => hL x (List.mem_cons_of_mem _ hx)),
      hL l (List.mem_cons_self _ _)]
    ring

/-- Reading component `n` of chunk `q` in a flattened constant-chunk list. -/
theorem getD_flatten_const {α : Type} [Inhabited α] {c : ℕ} :
    ∀ (L : List (List α)), (∀ l ∈ L, l.length = c) → ∀ (q n : ℕ), n < c →
      L.flatten.getD (q * c + n) default = (L.getD q []).getD n default := by
  intro L
  induction L with
  | nil => intro _ q n _; simp
  | cons l L ih =>
    intro hL q n hn
    have hl : l.length = c := hL l (List.mem_cons_self _ _)
    have hL' : ∀ x ∈ L, x.length = c :=
      fun x hx => hL x (List.mem_cons_of_mem _ hx)
    cases q with
    | zero =>
      simp only [List.flatten_cons, Nat.zero_mul, Nat.zero_add]
      rw [List.getD_append _ _ _ _ (by omega), List.getD_cons_zero]
    | succ q =>
      simp only [List.flatten_cons]
      rw [List.getD_append_right _ _ _ _ (by rw [hl]; nlinarith)]
      have harith : (q + 1) * c + n - l.length = q * c + n := by
        rw [hl]; ring_nf; omega
      rw [harith, ih hL' q n hn, List.getD_cons_succ]

/-- Dropping whole chunks of a flattened constant-chunk list. -/
theorem drop_flatten_const {α : Type} {c : ℕ} :
    ∀ (L : List (List α)), (∀ l ∈ L, l.length = c) → ∀ (q : ℕ),
      L.flatten.drop (q * c) = (L.drop q).flatten := by
  intro L
  induction L with
  | nil => intro _ q; simp
  | cons l L ih =>
    intro hL q
    have hl : l.length = c := hL l (List.mem_cons_self _ _)
    have hL' : ∀ x ∈ L, x.length = c :=
      fun x hx => hL x (List.mem_cons_of_mem _ hx)
    cases q with
    | zero => simp
    | succ q =>
      simp only [List.flatten_cons, List.drop_succ_cons]
      have : (q + 1) * c = l.length + q * c := by rw [hl]; ring
      rw [this, ← List.drop_drop, List.drop_left, ih hL' q]

/-- Taking one chunk of a flattened constant-chunk list. -/
theorem take_drop_flatten_const {α : Type} {c : ℕ} (L : List (List α))
    (hL : ∀ l ∈ L, l.length = c) (q : ℕ) (hq : q < L.length) :
    (L.flatten.drop (q * c)).take c = L.getD q [] := by
  rw [drop_flatten_const L hL q]
  have hne : L.drop q ≠ [] := by
    intro h
    have := List.length_drop q L
    rw [h] at this
    simp at this
    omega
  obtain ⟨x, xs, hx⟩ := List.exists_cons_of_ne_nil hne
  rw [hx, List.flatten_cons]
  have hxlen : x.length = c := by
    apply hL
    have : x ∈ L.drop q := by rw [hx]; exact List.mem_cons_self _ _
    exact List.mem_of_mem_drop this
  rw [← hxlen, List.take_left]
  have hdx : L.drop q = L[q] :: L.drop (q + 1) := List.drop_eq_getElem_cons hq
  rw [hx] at hdx
  have : L.getD q [] = x := by
    rw [List.getD_eq_getElem _ _ hq]
    exact (((List.cons.injEq ..).mp hdx).1).symm
  rw [this]

/-- `getD` of `map f (range k)` below the bound. -/
theorem getD_map_range {α : Type} [Inhabited α] (f : ℕ → α) {k j : ℕ}
    (hj : j < k) (d : α) : ((List.range k).map f).getD j d = f j := by
  rw [List.getD_eq_getElem _ _ (by simpa using hj), List.getElem_map,
    List.getElem_range]

/-! ## Properties of the knot scan -/

theorem kstopOf_le_length (u : ℚ) : ∀ l : List ℚ, kstopOf u l ≤ l.length := by
  intro l
  induction l with
  | nil => simp [kstopOf]
  | cons x xs ih =>
    simp only [kstopOf, List.length_cons]
    split
    · omega
    · omega

/-- Every index strictly before the break index was scanned without
breaking. -/
theorem not_breakAt_of_lt_kstop (u : ℚ) :
    ∀ (l : List ℚ) (j : ℕ), j < kstopOf u l → breakAt u (l.getD j 0) = false := by
  intro l
  induction l with
  | nil => intro j hj; simp [kstopOf] at hj
  | cons x xs ih =>
    intro j hj
    simp only [kstopOf] at hj
    by_cases hbx : breakAt u x
    · simp [hbx] at hj
    · rw [if_neg hbx] at hj
      cases j with
      | zero => simpa [List.getD_cons_zero] using hbx
      | succ j =>
        rw [List.getD_cons_succ]
        exact ih j (by omega)

/-- If the scan stopped before the end, the knot at the break index
satisfies the break condition. -/
theorem breakAt_kstop (u : ℚ) :
    ∀ l : List ℚ, kstopOf u l < l.length →
      breakAt u (l.getD (kstopOf u l) 0) = true := by
  intro l
  induction l with
  | nil => intro h; simp at h
  | cons x xs ih =>
    intro h
    simp only [kstopOf] at h ⊢
    by_cases hbx : breakAt u x
    · simp [hbx]
    · rw [if_neg hbx] at h ⊢
      rw [List.getD_cons_succ]
      exact ih (by simpa using Nat.lt_of_succ_lt_succ h)

theorem scanS_le_kstop (u : ℚ) (knots : List ℚ) :
    scanS u knots ≤ kstopOf u knots := by
  unfold scanS
  calc ((List.range (kstopOf u knots)).filter
        (fun j => ts_fequals u (knots.getD j 0))).length
      ≤ (List.range (kstopOf u knots)).length := List.length_filter_le _ _
    _ = kstopOf u knots := List.length_range _

/-! ## Properties of the tolerant comparison -/

theorem ts_fequals_self (x : ℚ) : ts_fequals x x = true := by
  unfold ts_fequals FLT_MAX_ABS_ERROR
  norm_num

/-- Closed form of `ts_fequals`: absolute test, else relative error against
the larger magnitude. -/
theorem ts_fequals_eq (x y : ℚ) :
    ts_fequals x y =
      (decide (|x - y| < FLT_MAX_ABS_ERROR) ||
        decide (|x - y| / max |x| |y| ≤ FLT_MAX_REL_ERROR)) := by
  unfold ts_fequals
  by_cases h : |x - y| < FLT_MAX_ABS_ERROR
  · simp [h]
  · have hd : decide (|x - y| < FLT_MAX_ABS_ERROR) = false := by simp [h]
    rw [if_neg h, hd, Bool.false_or]
    rcases lt_or_le |y| |x| with hxy | hxy
    · simp only [gt_iff_lt, if_pos hxy]
      rw [max_eq_left hxy.le, abs_div]
    · simp only [gt_iff_lt, if_neg (not_lt.mpr hxy)]
      rw [max_eq_right hxy, abs_div]

theorem ts_fequals_comm (x y : ℚ) : ts_fequals x y = ts_fequals y x := by
  rw [ts_fequals_eq, ts_fequals_eq, abs_sub_comm, max_comm]

/-- Monotonicity of the tolerant comparison on the near side: if `x` is
tolerantly equal to `u` and `y` lies between `x` and `u`, then `y` is
tolerantly equal to `u` as well.  (This is what makes the scanned tolerant
multiplicities of a sorted knot vector behave like a contiguous block below
`u`.) -/
theorem ts_fequals_mono {u x y : ℚ} (hxy : x ≤ y) (hyu : y ≤ u)
    (hfx : ts_fequals u x = true) : ts_fequals u y = true := by
  rw [ts_fequals_eq] at hfx ⊢
  rw [Bool.or_eq_true, decide_eq_true_eq, decide_eq_true_eq] at hfx ⊢
  by_cases habs : |u - y| < FLT_MAX_ABS_ERROR
  · exact Or.inl habs
  right
  have hA : (0 : ℚ) < FLT_MAX_ABS_ERROR := by norm_num [FLT_MAX_ABS_ERROR]
  have huy : FLT_MAX_ABS_ERROR ≤ u - y := by
    rw [abs_of_nonneg (by linarith)] at habs
    linarith [not_lt.mp habs]
  have huy0 : 0 < u - y := lt_of_lt_of_le hA huy
  have hux0 : 0 < u - x := by linarith
  rcases hfx with habs' | hrel
  · rw [abs_of_nonneg (le_of_lt hux0)] at habs'
    linarith
  rw [abs_of_nonneg (le_of_lt hux0)] at hrel
  rw [abs_of_nonneg (le_of_lt huy0)]
  have hR : FLT_MAX_REL_ERROR = (1 : ℚ) / 100000 := rfl
  have hmaxpos : 0 < max |u| |x| := by
    rcases lt_or_le 0 (max |u| |x|) with h | h
    · exact h
    · have h1 : u = 0 := abs_nonpos_iff.mp (le_trans (le_max_left _ _) h)
      have h2 : x = 0 := abs_nonpos_iff.mp (le_trans (le_max_right _ _) h)
      rw [h1, h2] at hux0
      simp at hux0
  rcases le_or_lt 0 u with hu0 | hu0
  · -- u is nonnegative; x below zero would force a relative error ≥ 1
    have hx0 : 0 ≤ x := by
      by_contra hx0
      push_neg at hx0
      have hmax : max |u| |x| ≤ u - x := by
        rw [abs_of_nonneg hu0, abs_of_neg hx0]
        exact max_le (by linarith) (by linarith)
      have := (div_le_iff hmaxpos).mp hrel
      rw [hR] at this
      nlinarith [hmaxpos]
    have hupos : 0 < u := by linarith
    have hmx : max |u| |x| = u := by
      rw [abs_of_nonneg hu0, abs_of_nonneg hx0]
      exact max_eq_left (by linarith)
    have hmy : max |u| |y| = u := by
      rw [abs_of_nonneg hu0, abs_of_nonneg (by linarith : (0 : ℚ) ≤ y)]
      exact max_eq_left (by linarith)
    rw [hmx] at hrel
    rw [hmy]
    have h1 := (div_le_iff hupos).mp hrel
    exact (div_le_iff hupos).mpr (by linarith)
  · -- u negative: everything is negative, the divisor is the far operand
    have hy0 : y < 0 := lt_of_le_of_lt hyu hu0
    have hx0 : x < 0 := lt_of_le_of_lt hxy hy0
    have hmy : max |u| |y| = -y := by
      rw [abs_of_neg hu0, abs_of_neg hy0]
      exact max_eq_right (by linarith)
    have hmx : max |u| |x| = -x := by
      rw [abs_of_neg hu0, abs_of_neg hx0]
      exact max_eq_right (by linarith)
    rw [hmx] at hrel
    rw [hmy]
    have hxpos : (0 : ℚ) < -x := by linarith
    have hypos : (0 : ℚ) < -y := by linarith
    have h1 := (div_le_iff hxpos).mp hrel
    rw [hR] at h1 ⊢
    refine (div_le_iff hypos).mpr ?_
    nlinarith

/-! ## The triangular table: bookkeeping lemmas -/

/-- Number of points in rows `0..m-1` of a triangular De Boor table whose
row `r` holds `N - r` points. -/
def rowStart (N : ℕ) : ℕ → ℕ
  | 0 => 0
  | m + 1 => rowStart N m + (N - m)

theorem rowStart_mono (N : ℕ) {m m' : ℕ} (h : m ≤ m') :
    rowStart N m ≤ rowStart N m' := by
  induction m' with
  | zero =>
    have : m = 0 := by omega
    subst this
    exact le_rfl
  | succ m' ih =>
    rcases Nat.eq_or_lt_of_le h with rfl | hlt
    · exact le_rfl
    · calc rowStart N m ≤ rowStart N m' := ih (by omega)
        _ ≤ rowStart N m' + (N - m') := Nat.le_add_right _ _
        _ = rowStart N (m' + 1) := by simp [rowStart]

theorem rowStart_closed (N : ℕ) :
    ∀ m, m ≤ N → 2 * rowStart N m + (N - m) * (N - m + 1) = N * (N + 1) := by
  intro m
  induction m with
  | zero => intro _; simp [rowStart]
  | succ m ih =>
    intro hm
    have h1 := ih (by omega)
    simp only [rowStart, Nat.mul_add]
    have ha : N - m = N - (m + 1) + 1 := by omega
    rw [ha] at h1
    nlinarith [h1]

theorem rowStart_total (N : ℕ) : rowStart N N = N * (N + 1) / 2 := by
  have := rowStart_closed N N le_rfl
  simp at this
  omega

theorem dRowPts_length (u : ℚ) (knots ctrlp : List ℚ) (deg dim fstN N r : ℕ) :
    (dRowPts u knots ctrlp deg dim fstN N r).length = N - r := by
  simp [dRowPts]

theorem dTablePts_succ (u : ℚ) (knots ctrlp : List ℚ)
    (deg dim fstN N h : ℕ) :
    dTablePts u knots ctrlp deg dim fstN N (h + 1) =
      dTablePts u knots ctrlp deg dim fstN N h ++
        dRowPts u knots ctrlp deg dim fstN N (h + 1) := by
  unfold dTablePts
  rw [List.range_succ, List.map_append, List.flatten_append]
  simp

theorem dTablePts_zero (u : ℚ) (knots ctrlp : List ℚ) (deg dim fstN N : ℕ) :
    dTablePts u knots ctrlp deg dim fstN N 0 =
      dRowPts u knots ctrlp deg dim fstN N 0 := by
  unfold dTablePts
  simp [List.range_succ]

theorem dTablePts_length (u : ℚ) (knots ctrlp : List ℚ)
    (deg dim fstN N : ℕ) :
    ∀ h, (dTablePts u knots ctrlp deg dim fstN N h).length =
      rowStart N (h + 1) := by
  intro h
  induction h with
  | zero => rw [dTablePts_zero, dRowPts_length]; simp [rowStart]
  | succ h ih =>
    rw [dTablePts_succ, List.length_append, ih, dRowPts_length]
    simp [rowStart]

/-- Every point of the table has `dim` components, as soon as the affected
window lies inside the control-point buffer. -/
theorem dTablePts_chunks (u : ℚ) (knots ctrlp : List ℚ)
    (deg dim fstN N h : ℕ) (Hc : (fstN + N) * dim ≤ ctrlp.length) :
    ∀ p ∈ dTablePts u knots ctrlp deg dim fstN N h, p.length = dim := by
  intro p hp
  rw [dTablePts, List.mem_flatten] at hp
  obtain ⟨row, hrow, hprow⟩ := hp
  rw [List.mem_map] at hrow
  obtain ⟨r, hr, rfl⟩ := hrow
  rw [dRowPts, List.mem_map] at hprow
  obtain ⟨j, hj, rfl⟩ := hprow
  rw [List.mem_range] at hj
  cases r with
  | zero =>
    show ((ctrlp.drop ((fstN + j) * dim)).take dim).length = dim
    rw [List.length_take, List.length_drop]
    have : (fstN + j + 1) * dim ≤ (fstN + N) * dim :=
      Nat.mul_le_mul_right _ (by omega)
    have h2 : (fstN + j + 1) * dim = (fstN + j) * dim + dim := by ring
    omega
  | succ r =>
    show ((List.range dim).map _).length = dim
    simp

theorem dTablePts_getD (u : ℚ) (knots ctrlp : List ℚ)
    (deg dim fstN N : ℕ) :
    ∀ h m j, m ≤ h → j < N - m →
      (dTablePts u knots ctrlp deg dim fstN N h).getD (rowStart N m + j) []
        = dPt u knots ctrlp deg dim fstN m j := by
  intro h
  induction h with
  | zero =>
    intro m j hm hj
    interval_cases m
    rw [dTablePts_zero]
    show (dRowPts u knots ctrlp deg dim fstN N 0).getD (0 + j) [] = _
    rw [Nat.zero_add, dRowPts, getD_map_range _ hj]
  | succ h ih =>
    intro m j hm hj
    rw [dTablePts_succ]
    rcases Nat.lt_or_ge m (h + 1) with hlt | hge
    · rw [List.getD_append _ _ _ _ ?_]
      · exact ih m j (by omega) hj
      · rw [dTablePts_length]
        calc rowStart N m + j < rowStart N m + (N - m) := by omega
          _ = rowStart N (m + 1) := rfl
          _ ≤ rowStart N (h + 1) := rowStart_mono N (by omega)
    · have hm' : m = h + 1 := by omega
      subst hm'
      rw [List.getD_append_right _ _ _ _ (by rw [dTablePts_length]; omega)]
      rw [dTablePts_length]
      have : rowStart N (h + 1) + j - rowStart N (h + 1) = j := by omega
      rw [this, dRowPts, getD_map_range _ hj]

theorem dTable_length (u : ℚ) (knots ctrlp : List ℚ) (deg dim fstN N h : ℕ)
    (Hc : (fstN + N) * dim ≤ ctrlp.length) :
    (dTable u knots ctrlp deg dim fstN N h).length = rowStart N (h + 1) * dim := by
  unfold dTable
  rw [length_flatten_const _ (dTablePts_chunks u knots ctrlp deg dim fstN N h Hc),
    dTablePts_length]

theorem dTable_getD (u : ℚ) (knots ctrlp : List ℚ) (deg dim fstN N h m j n : ℕ)
    (Hc : (fstN + N) * dim ≤ ctrlp.length) (hm : m ≤ h) (hj : j < N - m)
    (hn : n < dim) :
    (dTable u knots ctrlp deg dim fstN N h).getD ((rowStart N m + j) * dim + n) 0
      = (dPt u knots ctrlp deg dim fstN m j).getD n 0 := by
  unfold dTable
  have h1 := getD_flatten_const (c := dim)
    (dTablePts u knots ctrlp deg dim fstN N h)
    (dTablePts_chunks u knots ctrlp deg dim fstN N h Hc)
    (rowStart N m + j) n hn
  have hdef : (default : ℚ) = 0 := rfl
  rw [hdef] at h1
  rw [h1, dTablePts_getD u knots ctrlp deg dim fstN N h m j hm hj]

theorem dRow0_flatten (u : ℚ) (knots ctrlp : List ℚ) (deg dim fstN : ℕ) :
    ∀ K, ((List.range K).map
        (fun j => dPt u knots ctrlp deg dim fstN 0 j)).flatten
      = (ctrlp.drop (fstN * dim)).take (K * dim) := by
  intro K
  induction K with
  | zero => simp
  | succ K ih =>
    rw [List.range_succ, List.map_append, List.flatten_append, ih]
    have hdp : dPt u knots ctrlp deg dim fstN 0 K =
        (ctrlp.drop ((fstN + K) * dim)).take dim := rfl
    have h1 : (K + 1) * dim = K * dim + dim := by ring
    rw [h1, List.take_add]
    have h2 : (ctrlp.drop (fstN * dim)).drop (K * dim) =
        ctrlp.drop ((fstN + K) * dim) := by
      rw [List.drop_drop]
      congr 1
      ring
    rw [h2]
    simp [hdp]

theorem dTable_zero (u : ℚ) (knots ctrlp : List ℚ) (deg dim fstN N : ℕ) :
    dTable u knots ctrlp deg dim fstN N 0 =
      (ctrlp.drop (fstN * dim)).take (N * dim) := by
  unfold dTable
  rw [dTablePts_zero]
  unfold dRowPts
  rw [Nat.sub_zero]
  exact dRow0_flatten u knots ctrlp deg dim fstN N


/-- The inner loop of refinement round `m+1`: after `j` steps the buffer
holds rows `0..m` followed by the first `j` points of row `m+1`, and the
read indices have advanced `j` points into row `m`. -/
theorem deBoorInner_spec (u : ℚ) (knots ctrlp : List ℚ)
    (deg dim fstN lstN m : ℕ)
    (Hc : (lstN + 1) * dim ≤ ctrlp.length) (hfl : fstN ≤ lstN)
    (hm : m + 1 ≤ lstN - fstN) :
    ∀ j, j ≤ lstN - fstN - m →
      (List.range j).foldl
        (fun acc jj =>
          lerpStep (aFactor u knots deg (m + 1) (fstN + (m + 1) + jj)) dim acc)
        (dTable u knots ctrlp deg dim fstN (lstN - fstN + 1) m,
         rowStart (lstN - fstN + 1) m * dim,
         rowStart (lstN - fstN + 1) m * dim + dim)
      = (dTable u knots ctrlp deg dim fstN (lstN - fstN + 1) m ++
          ((List.range j).map
            (fun jj => dPt u knots ctrlp deg dim fstN (m + 1) jj)).flatten,
         rowStart (lstN - fstN + 1) m * dim + j * dim,
         rowStart (lstN - fstN + 1) m * dim + (j + 1) * dim) := by
  have HcN : (fstN + (lstN - fstN + 1)) * dim ≤ ctrlp.length := by
    have he : fstN + (lstN - fstN + 1) = lstN + 1 := by omega
    rw [he]
    exact Hc
  intro j
  induction j with
  | zero => intro _; simp
  | succ j ih =>
    intro hj
    rw [List.range_succ, List.foldl_append, ih (by omega), List.foldl_cons,
      List.foldl_nil]
    set N := lstN - fstN + 1 with hN
    set a := aFactor u knots deg (m + 1) (fstN + (m + 1) + j) with ha
    set T := dTable u knots ctrlp deg dim fstN N m with hT
    set F := ((List.range j).map
      (fun jj => dPt u knots ctrlp deg dim fstN (m + 1) jj)).flatten with hF
    set L := rowStart N m * dim with hL
    have hTlen : T.length = rowStart N (m + 1) * dim :=
      dTable_length u knots ctrlp deg dim fstN N m HcN
    have hrs : rowStart N (m + 1) = rowStart N m + (N - m) := rfl
    have hread : ∀ j' n, j' ≤ j + 1 → n < dim →
        (T ++ F).getD (L + j' * dim + n) 0
          = (dPt u knots ctrlp deg dim fstN m j').getD n 0 := by
      intro j' n hj' hn
      have hidx : L + j' * dim + n = (rowStart N m + j') * dim + n := by
        rw [hL]; ring_nf
      have hbound : L + j' * dim + n < T.length := by
        rw [hTlen, hrs, hL]
        have h1 : (rowStart N m + (N - m)) * dim =
            rowStart N m * dim + (N - m) * dim := by ring
        have h4 : (j' + 1) * dim ≤ (N - m) * dim :=
          Nat.mul_le_mul_right _ (by omega)
        have h5 : (j' + 1) * dim = j' * dim + dim := by ring
        omega
      rw [List.getD_append _ _ _ _ hbound, hidx]
      exact dTable_getD u knots ctrlp deg dim fstN N m m j' n HcN le_rfl
        (by omega) hn
    have hpoint : (List.range dim).map (fun n =>
          (1 - a) * (T ++ F).getD (L + j * dim + n) 0 +
            a * (T ++ F).getD (L + (j + 1) * dim + n) 0)
        = dPt u knots ctrlp deg dim fstN (m + 1) j := by
      have hstep : dPt u knots ctrlp deg dim fstN (m + 1) j =
          (List.range dim).map (fun n =>
            (1 - a) * (dPt u knots ctrlp deg dim fstN m j).getD n 0 +
              a * (dPt u knots ctrlp deg dim fstN m (j + 1)).getD n 0) := rfl
      rw [hstep]
      apply List.map_congr_left
      intro n hn
      rw [List.mem_range] at hn
      rw [hread j n (by omega) hn, hread (j + 1) n le_rfl hn]
    have hFsucc : ((List.range j ++ [j]).map
          (fun jj => dPt u knots ctrlp deg dim fstN (m + 1) jj)).flatten
        = F ++ dPt u knots ctrlp deg dim fstN (m + 1) j := by
      rw [hF, List.map_append, List.flatten_append]
      simp
    show ((T ++ F) ++ (List.range dim).map (fun n =>
          (1 - a) * (T ++ F).getD (L + j * dim + n) 0 +
            a * (T ++ F).getD (L + (j + 1) * dim + n) 0),
        L + j * dim + dim, L + (j + 1) * dim + dim)
      = (T ++ ((List.range j ++ [j]).map
          (fun jj => dPt u knots ctrlp deg dim fstN (m + 1) jj)).flatten,
        L + (j + 1) * dim, L + (j + 1 + 1) * dim)
    rw [hpoint, hFsucc, List.append_assoc]
    have e1 : L + j * dim + dim = L + (j + 1) * dim := by ring
    have e2 : L + (j + 1) * dim + dim = L + (j + 1 + 1) * dim := by ring
    rw [e1, e2]

/-- One full refinement round extends the table by exactly row `m+1` and
advances the read indices to the start of row `m+1`. -/
theorem deBoorRound_spec (u : ℚ) (knots ctrlp : List ℚ)
    (deg dim fstN lstN m : ℕ)
    (Hc : (lstN + 1) * dim ≤ ctrlp.length) (hfl : fstN ≤ lstN)
    (hm : m + 1 ≤ lstN - fstN) :
    deBoorRound u knots deg dim fstN lstN (m + 1)
      (dTable u knots ctrlp deg dim fstN (lstN - fstN + 1) m,
       rowStart (lstN - fstN + 1) m * dim,
       rowStart (lstN - fstN + 1) m * dim + dim)
    = (dTable u knots ctrlp deg dim fstN (lstN - fstN + 1) (m + 1),
       rowStart (lstN - fstN + 1) (m + 1) * dim,
       rowStart (lstN - fstN + 1) (m + 1) * dim + dim) := by
  unfold deBoorRound
  have hcnt : lstN + 1 - (fstN + (m + 1)) = lstN - fstN - m := by omega
  rw [hcnt,
    deBoorInner_spec u knots ctrlp deg dim fstN lstN m Hc hfl hm
      (lstN - fstN - m) le_rfl]
  set N := lstN - fstN + 1 with hN
  show (dTable u knots ctrlp deg dim fstN N m ++
      ((List.range (lstN - fstN - m)).map
        (fun jj => dPt u knots ctrlp deg dim fstN (m + 1) jj)).flatten,
    rowStart N m * dim + (lstN - fstN - m) * dim + dim,
    rowStart N m * dim + (lstN - fstN - m + 1) * dim + dim)
    = (dTable u knots ctrlp deg dim fstN N (m + 1),
       rowStart N (m + 1) * dim, rowStart N (m + 1) * dim + dim)
  have hNm : N - (m + 1) = lstN - fstN - m := by omega
  have htab : dTable u knots ctrlp deg dim fstN N (m + 1)
      = dTable u knots ctrlp deg dim fstN N m ++
        ((List.range (lstN - fstN - m)).map
          (fun jj => dPt u knots ctrlp deg dim fstN (m + 1) jj)).flatten := by
    unfold dTable
    rw [dTablePts_succ, List.flatten_append]
    congr 2
    unfold dRowPts
    rw [hNm]
  rw [htab]
  have hrs : rowStart N (m + 1) = rowStart N m + (N - m) := rfl
  have h2 : N - m = lstN - fstN - m + 1 := by omega
  have e1 : rowStart N m * dim + (lstN - fstN - m) * dim + dim
      = rowStart N (m + 1) * dim := by
    rw [hrs, h2]; ring
  have e2 : rowStart N m * dim + (lstN - fstN - m + 1) * dim + dim
      = rowStart N (m + 1) * dim + dim := by
    rw [hrs, h2]; ring
  rw [e1, e2]

/-- The De Boor loop invariant: after `H` rounds the buffer is exactly the
triangular table of rows `0..H`. -/
theorem deBoorRun_inv (u : ℚ) (knots ctrlp : List ℚ)
    (deg dim fstN lstN : ℕ)
    (Hc : (lstN + 1) * dim ≤ ctrlp.length) (hfl : fstN ≤ lstN) :
    ∀ H, H ≤ lstN - fstN →
      (List.range H).foldl
        (fun acc rj => deBoorRound u knots deg dim fstN lstN (rj + 1) acc)
        ((ctrlp.drop (fstN * dim)).take ((lstN - fstN + 1) * dim), 0, dim)
      = (dTable u knots ctrlp deg dim fstN (lstN - fstN + 1) H,
         rowStart (lstN - fstN + 1) H * dim,
         rowStart (lstN - fstN + 1) H * dim + dim) := by
  intro H
  induction H with
  | zero =>
    intro _
    simp only [List.range_zero, List.foldl_nil]
    rw [dTable_zero]
    norm_num [rowStart]
  | succ H ih =>
    intro hH
    rw [List.range_succ, List.foldl_append, ih (by omega), List.foldl_cons,
      List.foldl_nil]
    exact deBoorRound_spec u knots ctrlp deg dim fstN lstN H Hc hfl (by omega)

/-- The C refinement loop computes exactly the triangular De Boor table. -/
theorem deBoorRun_eq_dTable (u : ℚ) (knots ctrlp : List ℚ)
    (deg dim fstN lstN : ℕ)
    (Hc : (lstN + 1) * dim ≤ ctrlp.length) (hfl : fstN ≤ lstN) :
    deBoorRun u knots deg dim fstN lstN (lstN - fstN)
      ((ctrlp.drop (fstN * dim)).take ((lstN - fstN + 1) * dim))
    = dTable u knots ctrlp deg dim fstN (lstN - fstN + 1) (lstN - fstN) := by
  unfold deBoorRun
  rw [deBoorRun_inv u knots ctrlp deg dim fstN lstN Hc hfl (lstN - fstN) le_rfl]

/-- Structure of a general-case evaluation (`s < order`, window inside the
control points): return code `0` and a net whose points are the full
triangular De Boor table. -/
theorem evaluate_general_case (b : tsBSpline) (u : ℚ) (hval : b.valid)
    (hs : scanS u b.knots < b.order)
    (hk : b.deg + 1 ≤ kstopOf u b.knots)
    (hl : kstopOf u b.knots - 1 - scanS u b.knots < b.n_ctrlp) :
    ts_bspline_evaluate b u =
      .ok (0, ⟨(kstopOf u b.knots : ℤ) - 1, scanS u b.knots,
        (b.deg : ℤ) - (scanS u b.knots : ℤ), b.deg, b.dim,
        b.deg - scanS u b.knots + 1,
        (b.deg - scanS u b.knots + 1) * (b.deg - scanS u b.knots + 2) / 2,
        ((b.deg - scanS u b.knots + 1) * (b.deg - scanS u b.knots + 2) / 2 - 1)
          * b.dim,
        dTable u b.knots b.ctrlp b.deg b.dim
          (kstopOf u b.knots - 1 - b.deg)
          (b.deg - scanS u b.knots + 1)
          (b.deg - scanS u b.knots)⟩) := by
  obtain ⟨hdim, hdegn, hord, hnk, hclen, hklen, hsort⟩ := hval
  have hsdeg : scanS u b.knots ≤ b.deg := by omega
  simp only [ts_bspline_evaluate]
  rw [if_neg (by omega), if_neg (by omega), if_neg (by omega)]
  have hfstN : ((kstopOf u b.knots : ℤ) - 1 - (b.deg : ℤ)).toNat
      = kstopOf u b.knots - 1 - b.deg := by omega
  have hlstN : ((kstopOf u b.knots : ℤ) - 1 - (scanS u b.knots : ℤ)).toNat
      = kstopOf u b.knots - 1 - scanS u b.knots := by omega
  have hHH : ((b.deg : ℤ) - (scanS u b.knots : ℤ)).toNat
      = (kstopOf u b.knots - 1 - scanS u b.knots)
        - (kstopOf u b.knots - 1 - b.deg) := by omega
  rw [hfstN, hlstN, hHH]
  have Hc : ((kstopOf u b.knots - 1 - scanS u b.knots) + 1) * b.dim
      ≤ b.ctrlp.length := by
    rw [hclen]
    exact Nat.mul_le_mul_right _ (by omega)
  have hfl : kstopOf u b.knots - 1 - b.deg
      ≤ kstopOf u b.knots - 1 - scanS u b.knots := by omega
  rw [deBoorRun_eq_dTable u b.knots b.ctrlp b.deg b.dim _ _ Hc hfl]
  have hNN : (kstopOf u b.knots - 1 - scanS u b.knots)
      - (kstopOf u b.knots - 1 - b.deg) + 1 = b.deg - scanS u b.knots + 1 := by
    omega
  rw [hNN]
  have hN2 : b.deg - scanS u b.knots + 1 + 1 = b.deg - scanS u b.knots + 2 := rfl
  rw [hN2]
  have hHr : (kstopOf u b.knots - 1 - scanS u b.knots)
      - (kstopOf u b.knots - 1 - b.deg) = b.deg - scanS u b.knots := by omega
  rw [hHr]

/-- `ts_bspline_evaluate` returns `TS_MULTIPLICITY` exactly when the counted
multiplicity exceeds the order. -/
theorem evaluate_mult_iff (b : tsBSpline) (u : ℚ) :
    ts_bspline_evaluate b u = .error .TS_MULTIPLICITY ↔
      scanS u b.knots > b.order := by
  simp only [ts_bspline_evaluate]
  split_ifs with h1 h2 h3 h4
  · simp [h1]
  · simp [h1, h2]
  · simp [h1, h2]
  · simp
    omega
  · simp
    omega

/-- `ts_bspline_evaluate` returns `TS_U_UNDEFINED` exactly when the counted
multiplicity is below the order and the affected window
`[k-degree, k-multiplicity]` leaves the valid control-point range. -/
theorem evaluate_undefined_iff (b : tsBSpline) (u : ℚ) :
    ts_bspline_evaluate b u = .error .TS_U_UNDEFINED ↔
      (scanS u b.knots < b.order ∧
        ((kstopOf u b.knots : ℤ) - 1 - (b.deg : ℤ) < 0 ∨
          (kstopOf u b.knots : ℤ) - 1 - (scanS u b.knots : ℤ)
            ≥ (b.n_ctrlp : ℤ))) := by
  simp only [ts_bspline_evaluate]
  split_ifs with h1 h2 h3 h4
  · simp
    omega
  · simp
    omega
  · simp
    omega
  · simp only [true_iff]
    exact ⟨by omega, h4⟩
  · simp
    omega

/-- Structure of a boundary-case evaluation (`s = order`): no interpolation,
the net is one or two control points copied verbatim. -/
theorem evaluate_boundary_case (b : tsBSpline) (u : ℚ) (hval : b.valid)
    (hs : scanS u b.knots = b.order) :
    (kstopOf u b.knots = scanS u b.knots →
      ts_bspline_evaluate b u =
        .ok (1, ⟨(kstopOf u b.knots : ℤ) - 1, scanS u b.knots,
          (b.deg : ℤ) - (scanS u b.knots : ℤ), b.deg, b.dim, 1, 1, 0,
          b.ctrlp.take b.dim⟩)) ∧
    (scanS u b.knots < kstopOf u b.knots →
      b.n_ctrlp ≤ kstopOf u b.knots - scanS u b.knots →
      ts_bspline_evaluate b u =
        .ok (1, ⟨(kstopOf u b.knots : ℤ) - 1, scanS u b.knots,
          (b.deg : ℤ) - (scanS u b.knots : ℤ), b.deg, b.dim, 1, 1, 0,
          (b.ctrlp.drop ((kstopOf u b.knots - 1 - scanS u b.knots) * b.dim)).take
            b.dim⟩)) ∧
    (scanS u b.knots < kstopOf u b.knots →
      kstopOf u b.knots - scanS u b.knots < b.n_ctrlp →
      ts_bspline_evaluate b u =
        .ok (2, ⟨(kstopOf u b.knots : ℤ) - 1, scanS u b.knots,
          (b.deg : ℤ) - (scanS u b.knots : ℤ), b.deg, b.dim, 2, 2, b.dim,
          (b.ctrlp.drop ((kstopOf u b.knots - 1 - scanS u b.knots) * b.dim)).take
            (2 * b.dim)⟩)) := by
  obtain ⟨hdim, hdegn, hord, hnk, hclen, hklen, hsort⟩ := hval
  have hsk := scanS_le_kstop u b.knots
  refine ⟨?_, ?_, ?_⟩
  · intro hke
    simp only [ts_bspline_evaluate]
    rw [if_neg (by omega), if_pos hs, if_pos (by left; omega)]
    rw [if_pos (by omega)]
  · intro hlt hge
    simp only [ts_bspline_evaluate]
    rw [if_neg (by omega), if_pos hs, if_pos (by right; omega)]
    rw [if_neg (by omega)]
    have ht : ((kstopOf u b.knots : ℤ) - 1 - (scanS u b.knots : ℤ)).toNat
        = kstopOf u b.knots - 1 - scanS u b.knots := by omega
    rw [ht]
  · intro hlt hlt2
    simp only [ts_bspline_evaluate]
    rw [if_neg (by omega), if_pos hs, if_neg (by omega)]
    have ht : ((kstopOf u b.knots : ℤ) - 1 - (scanS u b.knots : ℤ)).toNat
        = kstopOf u b.knots - 1 - scanS u b.knots := by omega
    rw [ht]


/-- Buffer invariants of every successful evaluation: the net is
self-describing (`deg`, `dim` copied), holds `n_points` points of `dim`
floats, and `last_idx` addresses the final point. -/
theorem evaluate_success_invariants (b : tsBSpline) (u : ℚ)
    (code : ℕ) (net : tsDeBoorNet) (hval : b.valid)
    (h : ts_bspline_evaluate b u = .ok (code, net)) :
    net.deg = b.deg ∧ net.dim = b.dim ∧ 1 ≤ net.n_points ∧
    net.last_idx = (net.n_points - 1) * b.dim ∧
    net.points.length = net.n_points * b.dim := by
  obtain ⟨hdim, hdegn, hord, hclen2, hclen, hklen, hsort⟩ := id hval
  have hsk := scanS_le_kstop u b.knots
  have hkl := kstopOf_le_length u b.knots
  rcases lt_trichotomy (scanS u b.knots) b.order with hs | hs | hs
  · -- general region: either undefined or the triangular table
    by_cases hw : b.deg + 1 ≤ kstopOf u b.knots ∧
        kstopOf u b.knots - 1 - scanS u b.knots < b.n_ctrlp
    · rw [evaluate_general_case b u hval hs hw.1 hw.2] at h
      rw [Except.ok.injEq, Prod.mk.injEq] at h
      obtain ⟨hcode, hnet⟩ := h
      subst hnet
      have hs2 : scanS u b.knots ≤ b.deg := by omega
      refine ⟨rfl, rfl, ?_, by simp, ?_⟩
      · show 1 ≤ (b.deg - scanS u b.knots + 1) * (b.deg - scanS u b.knots + 2) / 2
        have h8 : 1 * 2 ≤ (b.deg - scanS u b.knots + 1) *
            (b.deg - scanS u b.knots + 2) := by
          nlinarith [Nat.zero_le (b.deg - scanS u b.knots)]
        omega
      · show (dTable u b.knots b.ctrlp b.deg b.dim
            (kstopOf u b.knots - 1 - b.deg)
            (b.deg - scanS u b.knots + 1) (b.deg - scanS u b.knots)).length = _
        rw [dTable_length u b.knots b.ctrlp b.deg b.dim _ _ _ ?_]
        · rw [show b.deg - scanS u b.knots + 1 =
              (b.deg - scanS u b.knots) + 1 from rfl, rowStart_total]
        · rw [hclen]
          refine Nat.mul_le_mul_right _ ?_
          omega
    · exfalso
      push_neg at hw
      have hbad : ts_bspline_evaluate b u = .error .TS_U_UNDEFINED := by
        rw [evaluate_undefined_iff]
        refine ⟨hs, ?_⟩
        by_cases hk1 : b.deg + 1 ≤ kstopOf u b.knots
        · right
          have := hw hk1
          omega
        · left
          omega
      rw [hbad] at h
      exact absurd h (by simp)
  · -- boundary region: one or two verbatim control points
    obtain ⟨hb1, hb2, hb3⟩ := evaluate_boundary_case b u hval hs
    rcases Nat.lt_or_ge (scanS u b.knots) (kstopOf u b.knots) with hlt | hge
    · rcases Nat.lt_or_ge (kstopOf u b.knots - scanS u b.knots) b.n_ctrlp
        with hc2 | hc1
      · rw [hb3 hlt hc2] at h
        rw [Except.ok.injEq, Prod.mk.injEq] at h
        obtain ⟨hcode, hnet⟩ := h
        subst hnet
        refine ⟨rfl, rfl, by show (1 : ℕ) ≤ 2; norm_num, by simp, ?_⟩
        show ((b.ctrlp.drop _).take (2 * b.dim)).length = 2 * b.dim
        rw [List.length_take, List.length_drop, hclen]
        have hf2 : (kstopOf u b.knots - 1 - scanS u b.knots) + 2 ≤ b.n_ctrlp := by
          omega
        have h6 : ((kstopOf u b.knots - 1 - scanS u b.knots) + 2) * b.dim
            ≤ b.n_ctrlp * b.dim := Nat.mul_le_mul_right _ hf2
        have h7 : ((kstopOf u b.knots - 1 - scanS u b.knots) + 2) * b.dim
            = (kstopOf u b.knots - 1 - scanS u b.knots) * b.dim + 2 * b.dim := by
          ring
        omega
      · rw [hb2 hlt hc1] at h
        rw [Except.ok.injEq, Prod.mk.injEq] at h
        obtain ⟨hcode, hnet⟩ := h
        subst hnet
        refine ⟨rfl, rfl, le_rfl, by simp, ?_⟩
        show ((b.ctrlp.drop _).take b.dim).length = 1 * b.dim
        rw [List.length_take, List.length_drop, hclen]
        have hf : (kstopOf u b.knots - 1 - scanS u b.knots) + 1 ≤ b.n_ctrlp := by
          omega
        have h6 : ((kstopOf u b.knots - 1 - scanS u b.knots) + 1) * b.dim
            ≤ b.n_ctrlp * b.dim := Nat.mul_le_mul_right _ hf
        have h7 : ((kstopOf u b.knots - 1 - scanS u b.knots) + 1) * b.dim
            = (kstopOf u b.knots - 1 - scanS u b.knots) * b.dim + b.dim := by ring
        omega
    · rw [hb1 (by omega)] at h
      rw [Except.ok.injEq, Prod.mk.injEq] at h
      obtain ⟨hcode, hnet⟩ := h
      subst hnet
      refine ⟨rfl, rfl, le_rfl, by simp, ?_⟩
      show (b.ctrlp.take b.dim).length = 1 * b.dim
      rw [List.length_take, hclen]
      have : 1 * b.dim ≤ b.n_ctrlp * b.dim :=
        Nat.mul_le_mul_right _ (by omega)
      omega
  · exfalso
    have hbad : ts_bspline_evaluate b u = .error .TS_MULTIPLICITY := by
      rw [evaluate_mult_iff]
      omega
    rw [hbad] at h
    exact absurd h (by simp)

/-- The last `dim` floats of the triangular table (at `last_idx`) form the
apex of the recursion: the single point of row `N-1`. -/
theorem dTable_final (u : ℚ) (knots ctrlp : List ℚ) (deg dim fstN N : ℕ)
    (Hc : (fstN + N) * dim ≤ ctrlp.length) (hN : 1 ≤ N) :
    (dTable u knots ctrlp deg dim fstN N (N - 1)).drop
      ((N * (N + 1) / 2 - 1) * dim)
      = dPt u knots ctrlp deg dim fstN (N - 1) 0 := by
  have hsucc : N - 1 + 1 = N := by omega
  have hlen : (dTablePts u knots ctrlp deg dim fstN N (N - 1)).length
      = rowStart N N := by rw [dTablePts_length, hsucc]
  have hrs : rowStart N N = rowStart N (N - 1) + 1 := by
    calc rowStart N N = rowStart N ((N - 1) + 1) := by rw [hsucc]
      _ = rowStart N (N - 1) + (N - (N - 1)) := rfl
      _ = rowStart N (N - 1) + 1 := by omega
  have hq : N * (N + 1) / 2 - 1 = rowStart N (N - 1) := by
    rw [← rowStart_total, hrs]
    omega
  unfold dTable
  rw [hq, drop_flatten_const _
    (dTablePts_chunks u knots ctrlp deg dim fstN N _ Hc)]
  have hqlt : rowStart N (N - 1)
      < (dTablePts u knots ctrlp deg dim fstN N (N - 1)).length := by
    rw [hlen]
    omega
  have hdrop : (dTablePts u knots ctrlp deg dim fstN N (N - 1)).drop
      (rowStart N (N - 1))
      = [dPt u knots ctrlp deg dim fstN (N - 1) 0] := by
    rw [List.drop_eq_getElem_cons hqlt]
    congr 1
    · rw [← List.getD_eq_getElem _ [] hqlt]
      have h2 := dTablePts_getD u knots ctrlp deg dim fstN N (N - 1) (N - 1) 0
        le_rfl (by omega)
      rw [Nat.add_zero] at h2
      rw [← h2]
    · refine List.drop_eq_nil_of_le ?_
      rw [hlen, hrs]
  rw [hdrop]
  simp

/-- C1: when evaluation reaches the general case (`s < order` and the
affected window `[k-degree, k-s]` inside `[0, numControlPoints)`),
`ts_bspline_evaluate` returns success code 0 and its points buffer is the
triangular De Boor table: row 0 copies the `N = degree-s+1` affected
control points and each round `r` appends the points
`(1-a)*left + a*right` with `a = (u-knots[i])/(knots[i+deg-r+1]-knots[i])`
(the recursion `dPt`); the final row is the single point stored at offset
`last_idx`, the evaluated curve point. -/
theorem evaluate_general_builds_table (b : tsBSpline) (u : ℚ)
    (hval : b.valid) (hs : scanS u b.knots < b.order)
    (hk : b.deg + 1 ≤ kstopOf u b.knots)
    (hl : kstopOf u b.knots - 1 - scanS u b.knots < b.n_ctrlp) :
    ts_bspline_evaluate b u =
      .ok (0, ⟨(kstopOf u b.knots : ℤ) - 1, scanS u b.knots,
        (b.deg : ℤ) - (scanS u b.knots : ℤ), b.deg, b.dim,
        b.deg - scanS u b.knots + 1,
        (b.deg - scanS u b.knots + 1) * (b.deg - scanS u b.knots + 2) / 2,
        ((b.deg - scanS u b.knots + 1) * (b.deg - scanS u b.knots + 2) / 2 - 1)
          * b.dim,
        dTable u b.knots b.ctrlp b.deg b.dim
          (kstopOf u b.knots - 1 - b.deg)
          (b.deg - scanS u b.knots + 1)
          (b.deg - scanS u b.knots)⟩) ∧
    (dTable u b.knots b.ctrlp b.deg b.dim (kstopOf u b.knots - 1 - b.deg)
        (b.deg - scanS u b.knots + 1) (b.deg - scanS u b.knots)).drop
      (((b.deg - scanS u b.knots + 1) * (b.deg - scanS u b.knots + 2) / 2 - 1)
        * b.dim)
      = dPt u b.knots b.ctrlp b.deg b.dim (kstopOf u b.knots - 1 - b.deg)
          (b.deg - scanS u b.knots) 0 := by
  refine ⟨evaluate_general_case b u hval hs hk hl, ?_⟩
  obtain ⟨hdim, hdegn, hord, hnk, hclen, hklen, hsort⟩ := hval
  have Hc : ((kstopOf u b.knots - 1 - b.deg) + (b.deg - scanS u b.knots + 1))
      * b.dim ≤ b.ctrlp.length := by
    rw [hclen]
    refine Nat.mul_le_mul_right _ ?_
    omega
  have hfin := dTable_final u b.knots b.ctrlp b.deg b.dim
    (kstopOf u b.knots - 1 - b.deg) (b.deg - scanS u b.knots + 1) Hc
    (by omega)
  have hN1 : b.deg - scanS u b.knots + 1 - 1 = b.deg - scanS u b.knots := by
    omega
  rw [hN1] at hfin
  exact hfin

/-- C1 witness: the spec's own example, a clamped quadratic over control
points `[0,1,2,3]` evaluated at `u = 1/2`. -/
theorem evaluate_general_builds_table_witness :
    ts_bspline_evaluate
        ⟨2, 3, 1, 4, 7, [0, 1, 2, 3], [0, 0, 0, mkRat 1 2, 1, 1, 1]⟩
        (mkRat 1 2)
      = .ok (0, ⟨3, 1, 1, 2, 1, 2, 3, 2, [1, 2, mkRat 3 2]⟩) := by
  have h := evaluate_general_builds_table
    ⟨2, 3, 1, 4, 7, [0, 1, 2, 3], [0, 0, 0, mkRat 1 2, 1, 1, 1]⟩ (mkRat 1 2)
    (by with_unfolding_all decide) (by with_unfolding_all decide)
    (by with_unfolding_all decide) (by with_unfolding_all decide)
  rw [h.1]
  with_unfolding_all rfl

/-- C4: `ts_bspline_evaluate` fails with `TS_MULTIPLICITY` exactly when the
counted multiplicity `s` exceeds the curve order, and, for `s < order`,
fails with `TS_U_UNDEFINED` exactly when the affected window exits the
valid range (`k - degree < 0` or `k - s >= numControlPoints`); an error
result carries no De Boor net. -/
theorem evaluate_error_conditions (b : tsBSpline) (u : ℚ) :
    (ts_bspline_evaluate b u = .error .TS_MULTIPLICITY ↔
      scanS u b.knots > b.order) ∧
    (scanS u b.knots < b.order →
      (ts_bspline_evaluate b u = .error .TS_U_UNDEFINED ↔
        ((kstopOf u b.knots : ℤ) - 1 - (b.deg : ℤ) < 0 ∨
          (kstopOf u b.knots : ℤ) - 1 - (scanS u b.knots : ℤ)
            ≥ (b.n_ctrlp : ℤ)))) := by
  refine ⟨evaluate_mult_iff b u, fun hs => ?_⟩
  rw [evaluate_undefined_iff]
  exact ⟨fun h => h.2, fun h => ⟨hs, h⟩⟩

/-- C4 witness: a knot vector of four equal knots on a degree-1 curve has
multiplicity 4 > order 2: evaluation fails with `TS_MULTIPLICITY`. -/
theorem evaluate_error_conditions_witness :
    ts_bspline_evaluate ⟨1, 2, 1, 2, 4, [5, 7], [0, 0, 0, 0]⟩ 0
      = .error .TS_MULTIPLICITY :=
  (evaluate_error_conditions ⟨1, 2, 1, 2, 4, [5, 7], [0, 0, 0, 0]⟩ 0).1.mpr
    (by with_unfolding_all decide)

/-- C5: at a parameter of full multiplicity (`s = order`) no interpolation
happens.  If the window start `k-s` is negative then `k-s = -1`, the only
in-range candidate is index `k-s+1 = 0`, and the net is that single control
point; if `k-s+1` exceeds the control points, the net is the single point
`k-s` (which is in range); if both are in range, the net is the two
consecutive control points `k-s, k-s+1` copied verbatim, code 2. -/
theorem evaluate_boundary_verbatim (b : tsBSpline) (u : ℚ) (hval : b.valid)
    (hs : scanS u b.knots = b.order) :
    ((kstopOf u b.knots : ℤ) - 1 - (scanS u b.knots : ℤ) < 0 →
      kstopOf u b.knots = scanS u b.knots ∧ 0 < b.n_ctrlp ∧
      ts_bspline_evaluate b u =
        .ok (1, ⟨(kstopOf u b.knots : ℤ) - 1, scanS u b.knots,
          (b.deg : ℤ) - (scanS u b.knots : ℤ), b.deg, b.dim, 1, 1, 0,
          (b.ctrlp.drop (0 * b.dim)).take b.dim⟩)) ∧
    (0 ≤ (kstopOf u b.knots : ℤ) - 1 - (scanS u b.knots : ℤ) →
      (b.n_ctrlp : ℤ) ≤ (kstopOf u b.knots : ℤ) - (scanS u b.knots : ℤ) →
      kstopOf u b.knots - 1 - scanS u b.knots < b.n_ctrlp ∧
      ts_bspline_evaluate b u =
        .ok (1, ⟨(kstopOf u b.knots : ℤ) - 1, scanS u b.knots,
          (b.deg : ℤ) - (scanS u b.knots : ℤ), b.deg, b.dim, 1, 1, 0,
          (b.ctrlp.drop ((kstopOf u b.knots - 1 - scanS u b.knots) * b.dim)).take
            b.dim⟩)) ∧
    (0 ≤ (kstopOf u b.knots : ℤ) - 1 - (scanS u b.knots : ℤ) →
      (kstopOf u b.knots : ℤ) - (scanS u b.knots : ℤ) < (b.n_ctrlp : ℤ) →
      ts_bspline_evaluate b u =
        .ok (2, ⟨(kstopOf u b.knots : ℤ) - 1, scanS u b.knots,
          (b.deg : ℤ) - (scanS u b.knots : ℤ), b.deg, b.dim, 2, 2, b.dim,
          (b.ctrlp.drop ((kstopOf u b.knots - 1 - scanS u b.knots) * b.dim)).take
            (2 * b.dim)⟩)) := by
  obtain ⟨hb1, hb2, hb3⟩ := evaluate_boundary_case b u hval hs
  have hsk := scanS_le_kstop u b.knots
  have hkl := kstopOf_le_length u b.knots
  obtain ⟨hdim, hdegn, hord, hnk, hclen, hklen, hsort⟩ := hval
  refine ⟨?_, ?_, ?_⟩
  · intro hneg
    have hke : kstopOf u b.knots = scanS u b.knots := by omega
    refine ⟨hke, by omega, ?_⟩
    rw [hb1 hke, Nat.zero_mul, List.drop_zero]
  · intro hge hout
    have hlt : scanS u b.knots < kstopOf u b.knots := by omega
    have hout' : b.n_ctrlp ≤ kstopOf u b.knots - scanS u b.knots := by omega
    exact ⟨by omega, hb2 hlt hout'⟩
  · intro hge hin
    have hlt : scanS u b.knots < kstopOf u b.knots := by omega
    have hin' : kstopOf u b.knots - scanS u b.knots < b.n_ctrlp := by omega
    exact hb3 hlt hin'

/-- C5 witness: the clamped line `[0,1]` pinned at `u = 0`: `k-s = -1`, one
point, copied from control point 0. -/
theorem evaluate_boundary_verbatim_witness :
    ts_bspline_evaluate ⟨1, 2, 1, 2, 4, [0, 1], [0, 0, 1, 1]⟩ 0
      = .ok (1, ⟨1, 2, -1, 1, 1, 1, 1, 0, [0]⟩) := by
  have h := (evaluate_boundary_verbatim ⟨1, 2, 1, 2, 4, [0, 1], [0, 0, 1, 1]⟩ 0
    (by with_unfolding_all decide) (by with_unfolding_all decide)).1
    (by with_unfolding_all decide)
  rw [h.2.2]
  with_unfolding_all rfl

/-- C7: `ts_bspline_insert_knot` propagates evaluation errors unchanged and
fails with `TS_MULTIPLICITY`, returning no curve, whenever the evaluated
multiplicity plus the insertion count exceeds the order. -/
theorem insert_knot_error_propagation (b : tsBSpline) (u : ℚ) (times : ℕ) :
    (∀ code net, ts_bspline_evaluate b u = .ok (code, net) →
      net.s + times > b.order →
      ts_bspline_insert_knot b u times = .error .TS_MULTIPLICITY) ∧
    (∀ e, ts_bspline_evaluate b u = .error e →
      ts_bspline_insert_knot b u times = .error e) := by
  constructor
  · intro code net h hmult
    simp only [ts_bspline_insert_knot, h]
    rw [if_pos hmult]
  · intro e h
    simp only [ts_bspline_insert_knot, h]

/-- C7 witness: inserting `u = 1/2` three times into the clamped quadratic
would raise the multiplicity to 4 > order 3. -/
theorem insert_knot_error_propagation_witness :
    ts_bspline_insert_knot
      ⟨2, 3, 1, 4, 7, [0, 1, 2, 3], [0, 0, 0, mkRat 1 2, 1, 1, 1]⟩
      (mkRat 1 2) 3 = .error .TS_MULTIPLICITY := by
  refine (insert_knot_error_propagation _ _ 3).1 0
    ⟨3, 1, 1, 2, 1, 2, 3, 2, [1, 2, mkRat 3 2]⟩ ?_ (by with_unfolding_all decide)
  with_unfolding_all rfl

/-- C10: every successful evaluation returns a net with `deg`/`dim` copied
from the curve, `last_idx = (n_points - 1) * dim`, a points buffer of
exactly `n_points * dim` floats, and the `dim` floats at `last_idx` within
bounds. -/
theorem deboornet_buffer_invariants (b : tsBSpline) (u : ℚ)
    (code : ℕ) (net : tsDeBoorNet) (hval : b.valid)
    (h : ts_bspline_evaluate b u = .ok (code, net)) :
    net.deg = b.deg ∧ net.dim = b.dim ∧
    net.last_idx = (net.n_points - 1) * net.dim ∧
    net.points.length = net.n_points * net.dim ∧
    net.last_idx + net.dim ≤ net.points.length := by
  obtain ⟨h1, h2, h3, h4, h5⟩ := evaluate_success_invariants b u code net hval h
  rw [h2]
  refine ⟨h1, rfl, h4, h5, ?_⟩
  rw [h4, h5]
  have e1 : (net.n_points - 1) * b.dim + b.dim = (net.n_points - 1 + 1) * b.dim := by
    ring
  have e2 : net.n_points - 1 + 1 = net.n_points := by omega
  rw [e1, e2]

/-- C10 witness: evaluating the clamped line `[0,1]` at `u = 1/2`. -/
theorem deboornet_buffer_invariants_witness :
    (⟨1, 0, 1, 1, 1, 2, 3, 2, [0, 1, mkRat 1 2]⟩ : tsDeBoorNet).deg = 1 ∧
    (⟨1, 0, 1, 1, 1, 2, 3, 2, [0, 1, mkRat 1 2]⟩ : tsDeBoorNet).dim = 1 ∧
    (⟨1, 0, 1, 1, 1, 2, 3, 2, [0, 1, mkRat 1 2]⟩ : tsDeBoorNet).last_idx =
      ((⟨1, 0, 1, 1, 1, 2, 3, 2, [0, 1, mkRat 1 2]⟩ : tsDeBoorNet).n_points - 1)
        * (⟨1, 0, 1, 1, 1, 2, 3, 2, [0, 1, mkRat 1 2]⟩ : tsDeBoorNet).dim ∧
    (⟨1, 0, 1, 1, 1, 2, 3, 2, [0, 1, mkRat 1 2]⟩ : tsDeBoorNet).points.length =
      (⟨1, 0, 1, 1, 1, 2, 3, 2, [0, 1, mkRat 1 2]⟩ : tsDeBoorNet).n_points
        * (⟨1, 0, 1, 1, 1, 2, 3, 2, [0, 1, mkRat 1 2]⟩ : tsDeBoorNet).dim ∧
    (⟨1, 0, 1, 1, 1, 2, 3, 2, [0, 1, mkRat 1 2]⟩ : tsDeBoorNet).last_idx +
        (⟨1, 0, 1, 1, 1, 2, 3, 2, [0, 1, mkRat 1 2]⟩ : tsDeBoorNet).dim ≤
      (⟨1, 0, 1, 1, 1, 2, 3, 2, [0, 1, mkRat 1 2]⟩ : tsDeBoorNet).points.length :=
  deboornet_buffer_invariants ⟨1, 2, 1, 2, 4, [0, 1], [0, 0, 1, 1]⟩ (mkRat 1 2)
    0 ⟨1, 0, 1, 1, 1, 2, 3, 2, [0, 1, mkRat 1 2]⟩
    (by with_unfolding_all decide) (by with_unfolding_all rfl)

/-! ## Sortedness of spliced knot vectors -/

theorem sorted_getD_le {l : List ℚ} (hs : l.Sorted (· ≤ ·)) (i j : ℕ)
    (hij : i ≤ j) (hj : j < l.length) : l.getD i 0 ≤ l.getD j 0 := by
  rw [List.getD_eq_getElem _ _ (by omega), List.getD_eq_getElem _ _ hj]
  have h2 := hs.rel_get_of_le (a := ⟨i, by omega⟩) (b := ⟨j, hj⟩)
    (by rw [Fin.mk_le_mk]; exact hij)
  simpa using h2

theorem take_le_of_sorted {l : List ℚ} (hs : l.Sorted (· ≤ ·)) (n : ℕ)
    (hn : n ≤ l.length) (v : ℚ) (hv : l.getD (n - 1) 0 ≤ v) :
    ∀ x ∈ l.take n, x ≤ v := by
  intro x hx
  obtain ⟨i, hi, hxi⟩ := List.mem_iff_getElem.mp hx
  rw [List.getElem_take] at hxi
  have hilen : i < l.length := by
    rw [List.length_take] at hi
    omega
  have h1 : l.getD i 0 ≤ l.getD (n - 1) 0 := by
    refine sorted_getD_le hs i (n - 1) ?_ (by rw [List.length_take] at hi; omega)
    rw [List.length_take] at hi
    omega
  rw [List.getD_eq_getElem _ _ hilen, hxi] at h1
  exact le_trans h1 hv

theorem drop_ge_of_sorted {l : List ℚ} (hs : l.Sorted (· ≤ ·)) (n : ℕ)
    (v : ℚ) (hv : v ≤ l.getD n 0) :
    ∀ y ∈ l.drop n, v ≤ y := by
  intro y hy
  obtain ⟨i, hi, hyi⟩ := List.mem_iff_getElem.mp hy
  rw [List.getElem_drop] at hyi
  rw [List.length_drop] at hi
  have h1 : l.getD n 0 ≤ l.getD (n + i) 0 :=
    sorted_getD_le hs n (n + i) (by omega) (by omega)
  rw [List.getD_eq_getElem _ _ (by omega : n + i < l.length), hyi] at h1
  exact le_trans hv h1

/-- Splicing `times` copies of `u` at position `n` of a sorted list keeps it
sorted, provided `u` dominates the entry before the splice point and is
below the entry at it. -/
theorem splice_sorted (l : List ℚ) (hs : l.Sorted (· ≤ ·)) (n times : ℕ)
    (hn : n ≤ l.length) (u : ℚ)
    (hlo : l.getD (n - 1) 0 ≤ u)
    (hhi : n < l.length → u ≤ l.getD n 0) :
    (l.take n ++ (List.replicate times u ++ l.drop n)).Sorted (· ≤ ·) := by
  have hdropge : ∀ y ∈ l.drop n, u ≤ y := by
    by_cases hcase : n < l.length
    · exact drop_ge_of_sorted hs n u (hhi hcase)
    · intro y hy
      rw [List.drop_eq_nil_of_le (by omega)] at hy
      simp at hy
  rw [List.Sorted, List.pairwise_append]
  refine ⟨List.Pairwise.sublist (List.take_sublist n l) hs, ?_, ?_⟩
  · rw [List.pairwise_append]
    refine ⟨List.pairwise_replicate.mpr (Or.inr le_rfl),
      List.Pairwise.sublist (List.drop_sublist n l) hs, ?_⟩
    intro a ha y hy
    rw [List.eq_of_mem_replicate ha]
    exact hdropge y hy
  · intro x hx b hb
    have hxu : x ≤ u := take_le_of_sorted hs n hn u hlo x hx
    rcases List.mem_append.mp hb with hb | hb
    · rw [List.eq_of_mem_replicate hb]
      exact hxu
    · exact le_trans hxu (hdropge b hb)

theorem breakAt_true_lt {u x : ℚ} (h : breakAt u x = true) : u < x := by
  simp only [breakAt, Bool.and_eq_true, decide_eq_true_eq] at h
  exact h.2

/-- Every successful evaluation reports the scan results: `k` is the break
index minus one and `s` the counted multiplicity. -/
theorem evaluate_ok_k_s (b : tsBSpline) (u : ℚ) (code : ℕ)
    (net : tsDeBoorNet) (h : ts_bspline_evaluate b u = .ok (code, net)) :
    net.k = (kstopOf u b.knots : ℤ) - 1 ∧ net.s = scanS u b.knots := by
  simp only [ts_bspline_evaluate] at h
  split_ifs at h <;>
    first
      | exact Except.noConfusion h
      | (rw [Except.ok.injEq, Prod.mk.injEq] at h
         obtain ⟨hcode, hnet⟩ := h
         subst hnet
         exact ⟨rfl, rfl⟩)

/-- C6 (amended): on every successful evaluation with
`multiplicity + times <= order`, `ts_bspline_insert_knot` returns a curve
with `times` more control points and knots whose knot vector is the
original with `u` inserted `times` times immediately after index `k`; the
new vector is non-decreasing whenever `u` is at least the knot at index `k`
(the scan guarantees `u` below the knot at `k+1`, but tolerant equality can
accept a `u` strictly below the knot at `k`, which is the corrected
carve-out). -/
theorem insert_knot_splices_knots (b : tsBSpline) (u : ℚ) (times : ℕ)
    (hval : b.valid) (code : ℕ) (net : tsDeBoorNet)
    (heval : ts_bspline_evaluate b u = .ok (code, net))
    (hmult : net.s + times ≤ b.order) :
    ∃ b' : tsBSpline, ts_bspline_insert_knot b u times = .ok b' ∧
      b'.n_ctrlp = b.n_ctrlp + times ∧
      b'.n_knots = b.n_knots + times ∧
      b'.knots = b.knots.take (kstopOf u b.knots) ++
        (List.replicate times u ++ b.knots.drop (kstopOf u b.knots)) ∧
      b'.knots.length = b.n_knots + times ∧
      (b.knots.getD (kstopOf u b.knots - 1) 0 ≤ u →
        b'.knots.Sorted (· ≤ ·)) := by
  obtain ⟨hk, hsn⟩ := evaluate_ok_k_s b u code net heval
  obtain ⟨hdim, hdegn, hord, hnk, hclen, hklen, hsort⟩ := hval
  have hkl := kstopOf_le_length u b.knots
  simp only [ts_bspline_insert_knot, heval]
  rw [if_neg (by omega), if_neg (by omega), if_neg (by omega)]
  have hkn : (net.k + 1).toNat = kstopOf u b.knots := by
    rw [hk]
    omega
  rw [hkn]
  refine ⟨_, rfl, rfl, by show b.n_ctrlp + times + (b.deg + 1) = _; omega,
    ?_, ?_, ?_⟩
  · show b.knots.take (kstopOf u b.knots) ++ List.replicate times u ++
      b.knots.drop (kstopOf u b.knots) = _
    rw [List.append_assoc]
  · show (b.knots.take (kstopOf u b.knots) ++ List.replicate times u ++
      b.knots.drop (kstopOf u b.knots)).length = _
    simp only [List.length_append, List.length_take, List.length_replicate,
      List.length_drop]
    omega
  · intro hle
    show (b.knots.take (kstopOf u b.knots) ++ List.replicate times u ++
      b.knots.drop (kstopOf u b.knots)).Sorted (· ≤ ·)
    rw [List.append_assoc]
    refine splice_sorted b.knots hsort (kstopOf u b.knots) times
      (by omega) u hle ?_
    intro hlt
    exact le_of_lt (breakAt_true_lt (breakAt_kstop u b.knots (by omega)))

/-- C6 counterexample: inserting `u = 1/2 - 2^(-24)` (a float one ulp below
the knot `1/2`, tolerantly equal to it) into a valid curve satisfies the
claim's premises, yet produces a knot vector that is not non-decreasing:
the spliced `u` lands after the strictly larger knot `1/2`. -/
theorem insert_knot_unsorted_counterexample :
    (⟨1, 2, 1, 3, 5, [0, 1, 2], [0, 0, mkRat 1 2, 1, 1]⟩ : tsBSpline).valid ∧
    scanS (mkRat 8388607 16777216)
        [0, 0, mkRat 1 2, 1, 1] + 1 ≤ 2 ∧
    ts_bspline_insert_knot
        ⟨1, 2, 1, 3, 5, [0, 1, 2], [0, 0, mkRat 1 2, 1, 1]⟩
        (mkRat 8388607 16777216) 1
      = .ok ⟨1, 2, 1, 4, 6, [0, 1, 1, 2],
          [0, 0, mkRat 1 2, mkRat 8388607 16777216, 1, 1]⟩ ∧
    ¬ ([0, 0, mkRat 1 2, mkRat 8388607 16777216, (1 : ℚ), 1].Sorted (· ≤ ·)) :=
  ⟨by with_unfolding_all decide, by with_unfolding_all decide,
    by with_unfolding_all rfl, by with_unfolding_all decide⟩

/-- C6 witness: inserting `u = 1/2` once into the spec's clamped quadratic
example. -/
theorem insert_knot_splices_knots_witness :
    ∃ b' : tsBSpline,
      ts_bspline_insert_knot
          ⟨2, 3, 1, 4, 7, [0, 1, 2, 3], [0, 0, 0, mkRat 1 2, 1, 1, 1]⟩
          (mkRat 1 2) 1 = .ok b' ∧
      b'.n_ctrlp = 4 + 1 ∧ b'.n_knots = 7 + 1 ∧
      b'.knots = [0, 0, 0, mkRat 1 2].take 4 ++
        (List.replicate 1 (mkRat 1 2) ++ [1, 1, 1]) ∧
      b'.knots.length = 7 + 1 ∧
      b'.knots.Sorted (· ≤ ·) := by
  have h := insert_knot_splices_knots
    ⟨2, 3, 1, 4, 7, [0, 1, 2, 3], [0, 0, 0, mkRat 1 2, 1, 1, 1]⟩ (mkRat 1 2) 1
    (by with_unfolding_all decide) 0 ⟨3, 1, 1, 2, 1, 2, 3, 2, [1, 2, mkRat 3 2]⟩
    (by with_unfolding_all rfl) (by with_unfolding_all decide)
  obtain ⟨b', h1, h2, h3, h4, h5, h6⟩ := h
  refine ⟨b', h1, h2, h3, ?_, h5, h6 (by with_unfolding_all decide)⟩
  rw [h4]
  with_unfolding_all rfl

/-- C2 (code bug): a valid curve that is already a single Bézier segment
(`numKnots - 2*order = 0`) makes `ts_bspline_to_bezier` return an *empty*
sequence, not the `m + 1 = 1` segments the specification requires: the
first split signals `2` (upper boundary) and the loop exits without ever
collecting the final segment.  (For `m >= 1` the code writes `m+1` segments
into the `m` slots it allocated and keeps using the freed split, modelled
as undefined behavior.) -/
theorem to_bezier_already_bezier_returns_empty :
    (⟨2, 3, 1, 3, 6, [0, 1, 2], [0, 0, 0, 1, 1, 1]⟩ : tsBSpline).valid ∧
    (⟨2, 3, 1, 3, 6, [0, 1, 2], [0, 0, 0, 1, 1, 1]⟩ : tsBSpline).n_knots -
      2 * (⟨2, 3, 1, 3, 6, [0, 1, 2], [0, 0, 0, 1, 1, 1]⟩ : tsBSpline).order
      = 0 ∧
    ts_bspline_to_bezier 9 ⟨2, 3, 1, 3, 6, [0, 1, 2], [0, 0, 0, 1, 1, 1]⟩
      = some (.ok ([] : List tsBSpline)) :=
  ⟨by with_unfolding_all decide, rfl, by with_unfolding_all rfl⟩

/-- Under the data-model invariants, `ts_bspline_copy` reproduces the curve
record exactly. -/
theorem copy_of_valid (b : tsBSpline) (hval : b.valid) :
    ts_bspline_copy b = .ok b := by
  rcases b with ⟨deg, ord, dim, nc, nk, cp, kn⟩
  obtain ⟨hdim, hdegn, hord, hnk, hclen, hklen, hsort⟩ := hval
  dsimp only at hdim hdegn hord hnk hclen hklen
  unfold ts_bspline_copy
  dsimp only
  rw [if_neg (by omega), if_neg (by omega)]
  rw [Except.ok.injEq, tsBSpline.mk.injEq]
  refine ⟨rfl, by omega, rfl, rfl, by omega, ?_, ?_⟩
  · rw [← hclen, List.take_length]
  · rw [← hklen, List.take_length]

/-- C8 counterexample: a valid curve whose lower boundary knot
`knots[degree]` equals `u = 0` tolerantly, but whose knot multiplicity at 0
exceeds the order: the split is not a one-copy sequence, it fails with
`TS_MULTIPLICITY`. -/
theorem split_boundary_error_counterexample :
    (⟨1, 2, 1, 3, 5, [0, 1, 2], [0, 0, 0, 0, 1]⟩ : tsBSpline).valid ∧
    ts_fequals
        ((⟨1, 2, 1, 3, 5, [0, 1, 2], [0, 0, 0, 0, 1]⟩ : tsBSpline).knots.getD
          1 0) 0 = true ∧
    ts_bspline_split ⟨1, 2, 1, 3, 5, [0, 1, 2], [0, 0, 0, 0, 1]⟩ 0
      = .error .TS_MULTIPLICITY :=
  ⟨by with_unfolding_all decide, by with_unfolding_all decide,
    by with_unfolding_all rfl⟩

/-- C8 (amended): for every valid curve and parameter `u` tolerantly equal
to a boundary knot (`knots[degree]` or `knots[numKnots-order]`) *on which
evaluation succeeds*, `ts_bspline_split` returns exactly one curve, a deep
copy of the original, and signals `1` for the lower boundary and `2` for
the upper via the return code, outside the sequence data. -/
theorem split_boundary_noop_copy (b : tsBSpline) (u : ℚ) (hval : b.valid)
    (code : ℕ) (net : tsDeBoorNet)
    (heval : ts_bspline_evaluate b u = .ok (code, net))
    (hbd : ts_fequals (b.knots.getD b.deg 0) u = true ∨
      ts_fequals (b.knots.getD (b.n_knots - b.order) 0) u = true) :
    ts_bspline_split b u =
      .ok ((if ts_fequals (b.knots.getD b.deg 0) u then 1 else 2), [b]) := by
  simp only [ts_bspline_split, heval]
  have hcond : (ts_fequals (b.knots.getD b.deg 0) u = true ∨
      ts_fequals (b.knots.getD (b.n_knots - b.order) 0) u = true) := hbd
  rw [if_pos hcond, if_neg (by norm_num), if_pos rfl, copy_of_valid b hval]

/-- C8 witness: splitting the clamped line `[0,1]` at its lower boundary
knot `0` returns signal 1 and a single full copy. -/
theorem split_boundary_noop_copy_witness :
    ts_bspline_split ⟨1, 2, 1, 2, 4, [0, 1], [0, 0, 1, 1]⟩ 0
      = .ok (1, [⟨1, 2, 1, 2, 4, [0, 1], [0, 0, 1, 1]⟩]) := by
  have h := split_boundary_noop_copy ⟨1, 2, 1, 2, 4, [0, 1], [0, 0, 1, 1]⟩ 0
    (by with_unfolding_all decide) 1 ⟨1, 2, -1, 1, 1, 1, 1, 0, [0]⟩
    (by with_unfolding_all rfl) (Or.inl (by with_unfolding_all decide))
  rw [h]
  with_unfolding_all rfl

/-- Taking whole chunks of a flattened constant-chunk list. -/
theorem take_flatten_const {α : Type} {c : ℕ} :
    ∀ (L : List (List α)), (∀ l ∈ L, l.length = c) → ∀ (q : ℕ),
      L.flatten.take (q * c) = (L.take q).flatten := by
  intro L
  induction L with
  | nil => intro _ q; simp
  | cons l L ih =>
    intro hL q
    have hl : l.length = c := hL l (List.mem_cons_self _ _)
    have hL' : ∀ x ∈ L, x.length = c :=
      fun x hx => hL x (List.mem_cons_of_mem _ hx)
    cases q with
    | zero => simp
    | succ q =>
      simp only [List.flatten_cons, List.take_succ_cons]
      have h1 : (q + 1) * c = l.length + q * c := by rw [hl]; ring
      rw [h1, List.take_add, List.take_left, List.drop_left, ih hL' q]

/-- A success with code 0 comes exactly from the general case, and the net
is the triangular table. -/
theorem evaluate_ok0_inversion (b : tsBSpline) (u : ℚ) (net : tsDeBoorNet)
    (hval : b.valid) (heval : ts_bspline_evaluate b u = .ok (0, net)) :
    scanS u b.knots < b.order ∧ b.deg + 1 ≤ kstopOf u b.knots ∧
    kstopOf u b.knots - 1 - scanS u b.knots < b.n_ctrlp ∧
    net = ⟨(kstopOf u b.knots : ℤ) - 1, scanS u b.knots,
      (b.deg : ℤ) - (scanS u b.knots : ℤ), b.deg, b.dim,
      b.deg - scanS u b.knots + 1,
      (b.deg - scanS u b.knots + 1) * (b.deg - scanS u b.knots + 2) / 2,
      ((b.deg - scanS u b.knots + 1) * (b.deg - scanS u b.knots + 2) / 2 - 1)
        * b.dim,
      dTable u b.knots b.ctrlp b.deg b.dim (kstopOf u b.knots - 1 - b.deg)
        (b.deg - scanS u b.knots + 1) (b.deg - scanS u b.knots)⟩ := by
  have hsk := scanS_le_kstop u b.knots
  have hkl := kstopOf_le_length u b.knots
  have hval' := hval
  obtain ⟨hdim, hdegn, hord, hnk, hclen, hklen, hsort⟩ := hval'
  rcases lt_trichotomy (scanS u b.knots) b.order with hs | hs | hs
  · by_cases hw : b.deg + 1 ≤ kstopOf u b.knots ∧
        kstopOf u b.knots - 1 - scanS u b.knots < b.n_ctrlp
    · rw [evaluate_general_case b u hval hs hw.1 hw.2] at heval
      rw [Except.ok.injEq, Prod.mk.injEq] at heval
      exact ⟨hs, hw.1, hw.2, heval.2.symm⟩
    · exfalso
      push_neg at hw
      have hbad : ts_bspline_evaluate b u = .error .TS_U_UNDEFINED := by
        rw [evaluate_undefined_iff]
        refine ⟨hs, ?_⟩
        by_cases hk1 : b.deg + 1 ≤ kstopOf u b.knots
        · right
          have := hw hk1
          omega
        · left
          omega
      rw [hbad] at heval
      exact Except.noConfusion heval
  · exfalso
    obtain ⟨hb1, hb2, hb3⟩ := evaluate_boundary_case b u hval hs
    rcases Nat.lt_or_ge (scanS u b.knots) (kstopOf u b.knots) with hlt | hge
    · rcases Nat.lt_or_ge (kstopOf u b.knots - scanS u b.knots) b.n_ctrlp
        with hc2 | hc1
      · rw [hb3 hlt hc2] at heval
        rw [Except.ok.injEq, Prod.mk.injEq] at heval
        omega
      · rw [hb2 hlt hc1] at heval
        rw [Except.ok.injEq, Prod.mk.injEq] at heval
        omega
    · rw [hb1 (by omega)] at heval
      rw [Except.ok.injEq, Prod.mk.injEq] at heval
      omega
  · exfalso
    have hbad : ts_bspline_evaluate b u = .error .TS_MULTIPLICITY := by
      rw [evaluate_mult_iff]
      omega
    rw [hbad] at heval
    exact Except.noConfusion heval

/-- Points `N .. 2N-2` of the full triangular table are exactly row 1. -/
theorem dTablePts_row1_slice (u : ℚ) (knots ctrlp : List ℚ)
    (deg dim fstN N : ℕ) (hN : 1 ≤ N) :
    ((dTablePts u knots ctrlp deg dim fstN N (N - 1)).drop N).take (N - 1)
      = (List.range (N - 1)).map
          (fun j => dPt u knots ctrlp deg dim fstN 1 j) := by
  have hsucc : N - 1 + 1 = N := by omega
  have hlen : (dTablePts u knots ctrlp deg dim fstN N (N - 1)).length
      = N * (N + 1) / 2 := by
    rw [dTablePts_length, hsucc, rowStart_total]
  have hdvd := (Nat.even_mul_succ_self N).two_dvd
  have h5 : 4 * N ≤ N * (N + 1) + 2 := by
    rcases Nat.lt_or_ge N 3 with h | h
    · interval_cases N <;> norm_num
    · have h4 : 4 ≤ N + 1 := by omega
      calc 4 * N = N * 4 := by ring
        _ ≤ N * (N + 1) := Nat.mul_le_mul_left _ h4
        _ ≤ N * (N + 1) + 2 := by omega
  have hrs1 : rowStart N 1 = N := by simp [rowStart]
  apply List.ext_getElem
  · rw [List.length_take, List.length_drop, hlen, List.length_map,
      List.length_range]
    omega
  · intro j hj1 hj2
    rw [List.length_take, List.length_drop, hlen] at hj1
    have hjN : j < N - 1 := by omega
    have hbound : N + j
        < (dTablePts u knots ctrlp deg dim fstN N (N - 1)).length := by
      rw [hlen]
      omega
    rw [List.getElem_take, List.getElem_drop, List.getElem_map,
      List.getElem_range, ← List.getD_eq_getElem _ [] hbound]
    have h6 := dTablePts_getD u knots ctrlp deg dim fstN N (N - 1) 1 j
      (by omega) (by omega)
    rw [hrs1] at h6
    exact h6

theorem diagSteps_one (pts : List ℚ) (dim : ℕ) (st : List ℚ × ℤ × ℤ) :
    diagSteps pts dim 1 st = (st.1 ++ (pts.drop st.2.1.toNat).take dim,
      st.2.1 + st.2.2, st.2.2 - dim) := by
  simp [diagSteps, List.range_succ]

/-- C3 (amended): on a successful general-case evaluation with
`multiplicity + 1 <= order`, `ts_bspline_insert_knot b u 1` succeeds and
returns the textbook (shape-preserving) Boehm refinement: the control
points are the originals up to index `k-degree`, then the `degree-s`
first-round De Boor blends
`dPt 1 j = (1-a)*P[k-deg+j] + a*P[k-deg+j+1]` with
`a = (u-knots[i])/(knots[i+deg]-knots[i])`, then the originals from index
`k-s` on; the knot vector is the original with `u` inserted after index
`k`. -/
theorem insert_knot_is_boehm_refinement (b : tsBSpline) (u : ℚ)
    (hval : b.valid) (net : tsDeBoorNet)
    (heval : ts_bspline_evaluate b u = .ok (0, net))
    (hmult : net.s + 1 ≤ b.order) :
    ∃ b', ts_bspline_insert_knot b u 1 = .ok b' ∧
      b'.ctrlp = b.ctrlp.take ((kstopOf u b.knots - b.deg) * b.dim) ++
        ((List.range (b.deg - scanS u b.knots)).map
          (fun j => dPt u b.knots b.ctrlp b.deg b.dim
            (kstopOf u b.knots - 1 - b.deg) 1 j)).flatten ++
        b.ctrlp.drop ((kstopOf u b.knots - 1 - scanS u b.knots) * b.dim) ∧
      b'.knots = b.knots.take (kstopOf u b.knots) ++ [u] ++
        b.knots.drop (kstopOf u b.knots) := by
  obtain ⟨hs, hk, hl, hnet⟩ := evaluate_ok0_inversion b u net hval heval
  obtain ⟨hdim, hdegn, hord, hnk, hclen, hklen, hsort⟩ := hval
  subst hnet
  have hmult2 : scanS u b.knots + 1 ≤ b.order := hmult
  simp only [ts_bspline_insert_knot, heval]
  rw [if_neg (by show ¬(scanS u b.knots + 1 > b.order); omega),
    if_neg (by omega), if_neg (by omega)]
  refine ⟨_, rfl, ?_, ?_⟩
  case refine_2 =>
    show b.knots.take (((kstopOf u b.knots : ℤ) - 1 + 1).toNat) ++
        List.replicate 1 u ++
        b.knots.drop (((kstopOf u b.knots : ℤ) - 1 + 1).toNat) = _
    have e0 : ((kstopOf u b.knots : ℤ) - 1 + 1).toNat = kstopOf u b.knots := by
      omega
    rw [e0]
    rfl
  case refine_1 =>
    have hsdeg : scanS u b.knots ≤ b.deg := by omega
    set sv := scanS u b.knots with hsv
    set kv := kstopOf u b.knots with hkv
    set Nn := b.deg - sv + 1 with hNn
    set fstN := kv - 1 - b.deg with hfstN
    set lstN := kv - 1 - sv with hlstN
    have hNpos : 1 ≤ Nn := by omega
    have hfl : fstN + Nn = lstN + 1 := by omega
    have Hc : (fstN + Nn) * b.dim ≤ b.ctrlp.length := by
      rw [hclen]
      refine Nat.mul_le_mul_right _ ?_
      omega
    have hchunks := dTablePts_chunks u b.knots b.ctrlp b.deg b.dim fstN Nn
      (b.deg - sv) Hc
    have hTlenPts : (dTablePts u b.knots b.ctrlp b.deg b.dim fstN Nn
        (b.deg - sv)).length = Nn * (Nn + 1) / 2 := by
      have hh : b.deg - sv + 1 = Nn := rfl
      rw [dTablePts_length, hh, ← rowStart_total]
    have hPP : 2 ≤ Nn * (Nn + 1) := by
      calc 2 = 1 * 2 := by norm_num
        _ ≤ Nn * (Nn + 1) := Nat.mul_le_mul hNpos (by omega)
    have hPm1 : 2 * (Nn - 1) + 1 ≤ Nn * (Nn + 1) := by
      have h1 : Nn * 2 ≤ Nn * (Nn + 1) := Nat.mul_le_mul_left _ (by omega)
      omega
    have hPdvd : 2 ∣ Nn * (Nn + 1) := (Nat.even_mul_succ_self Nn).two_dvd
    -- the four diagonal/middle pieces
    rw [diagSteps_one, diagSteps_one]
    simp only [Int.toNat_zero, List.drop_zero, List.nil_append, Int.zero_add]
    have e1 : (((kstopOf u b.knots : ℤ) - 1) - (b.deg : ℤ)).toNat = fstN := by
      omega
    have e2 : (((Nn : ℕ) : ℤ) * (b.dim : ℕ)).toNat = Nn * b.dim := by
      have : ((Nn : ℕ) : ℤ) * ((b.dim : ℕ) : ℤ) = ((Nn * b.dim : ℕ) : ℤ) := by
        push_cast
        ring
      rw [this, Int.toNat_natCast]
    have e3 : (((Nn : ℕ) : ℤ) * (b.dim : ℕ) - (b.dim : ℕ)).toNat
        = (Nn - 1) * b.dim := by
      have : ((Nn : ℕ) : ℤ) * ((b.dim : ℕ) : ℤ) - ((b.dim : ℕ) : ℤ)
          = (((Nn - 1) * b.dim : ℕ) : ℤ) := by
        push_cast [hNpos]
        ring
      rw [this, Int.toNat_natCast]
    rw [e1, e2, e3]
    -- name the table
    set T := dTable u b.knots b.ctrlp b.deg b.dim fstN Nn (b.deg - sv) with hT
    have hTdef : T = (dTablePts u b.knots b.ctrlp b.deg b.dim fstN Nn
        (b.deg - sv)).flatten := rfl
    -- piece B: the first point of the table is control point fstN
    have f1 : T.take b.dim = (b.ctrlp.drop (fstN * b.dim)).take b.dim := by
      have h0 : T.take b.dim = (T.drop (0 * b.dim)).take b.dim := by
        rw [Nat.zero_mul, List.drop_zero]
      rw [h0, hTdef, take_drop_flatten_const _ hchunks 0 (by rw [hTlenPts]; omega)]
      have h1 := dTablePts_getD u b.knots b.ctrlp b.deg b.dim fstN Nn
        (b.deg - sv) 0 0 (by omega) (by omega)
      have h2 : rowStart Nn 0 + 0 = 0 := rfl
      rw [h2] at h1
      rw [h1]
      rfl
    -- piece Cmid: the row-1 block
    have hNm1 : b.deg - sv = Nn - 1 := by omega
    have f2 : (T.drop (Nn * b.dim)).take ((Nn - 1) * b.dim)
        = ((List.range (Nn - 1)).map
            (fun j => dPt u b.knots b.ctrlp b.deg b.dim fstN 1 j)).flatten := by
      rw [hTdef, drop_flatten_const _ hchunks Nn,
        take_flatten_const _ (fun l hl => hchunks l (List.mem_of_mem_drop hl))
          (Nn - 1)]
      congr 1
      have := dTablePts_row1_slice u b.knots b.ctrlp b.deg b.dim fstN Nn hNpos
      rw [← hNm1] at this
      exact this
    -- piece D: the last point of row 0 is control point lstN
    have f3 : (T.drop ((Nn - 1) * b.dim)).take b.dim
        = (b.ctrlp.drop (lstN * b.dim)).take b.dim := by
      rw [hTdef, take_drop_flatten_const _ hchunks (Nn - 1)
        (by rw [hTlenPts]; omega)]
      have h1 := dTablePts_getD u b.knots b.ctrlp b.deg b.dim fstN Nn
        (b.deg - sv) 0 (Nn - 1) (by omega) (by omega)
      have h2 : rowStart Nn 0 + (Nn - 1) = Nn - 1 := by
        show 0 + (Nn - 1) = Nn - 1
        omega
      rw [h2] at h1
      rw [h1]
      show (b.ctrlp.drop ((fstN + (Nn - 1)) * b.dim)).take b.dim = _
      have h3 : fstN + (Nn - 1) = lstN := by omega
      rw [h3]
    rw [f1, f2, f3]
    -- assemble
    have g1 : b.ctrlp.take (fstN * b.dim) ++
        (b.ctrlp.drop (fstN * b.dim)).take b.dim
        = b.ctrlp.take ((kv - b.deg) * b.dim) := by
      rw [← List.take_add]
      congr 1
      have : kv - b.deg = fstN + 1 := by omega
      rw [this]
      ring
    have g2 : (b.ctrlp.drop (lstN * b.dim)).take b.dim ++
        b.ctrlp.drop ((fstN + Nn) * b.dim) = b.ctrlp.drop (lstN * b.dim) := by
      have h1 : (fstN + Nn) * b.dim = lstN * b.dim + b.dim := by
        rw [hfl]
        ring
      rw [h1, ← List.drop_drop, List.take_append_drop]
    rw [g1, List.append_assoc, g2, hNm1]

/-- C3 counterexample: insertion does *not* preserve shape under the
tolerant comparison.  `u = 1/2 + 2^(-24)` (one float ulp above `1/2`) is
tolerantly counted into the multiplicity of the knot `1/2`; the premises of
the claim hold (valid curve, `multiplicity+1 <= order`, evaluation
succeeds), yet the original curve evaluates to `0` at `v = 1/2` while the
refined curve evaluates to `-131072` there, and `ts_fequals` rejects the
pair. -/
theorem insert_knot_shape_counterexample :
    (⟨2, 3, 1, 4, 7, [0, 1099511627776, -1099511627776, 0],
      [0, 0, 0, mkRat 1 2, 1, 1, 1]⟩ : tsBSpline).valid ∧
    scanS (mkRat 8388609 16777216) [0, 0, 0, mkRat 1 2, 1, 1, 1] + 1 ≤ 3 ∧
    ts_bspline_insert_knot
        ⟨2, 3, 1, 4, 7, [0, 1099511627776, -1099511627776, 0],
          [0, 0, 0, mkRat 1 2, 1, 1, 1]⟩ (mkRat 8388609 16777216) 1
      = .ok ⟨2, 3, 1, 5, 8,
          [0, 1099511627776, -131072, -1099511627776, 0],
          [0, 0, 0, mkRat 1 2, mkRat 8388609 16777216, 1, 1, 1]⟩ ∧
    ts_bspline_evaluate
        ⟨2, 3, 1, 4, 7, [0, 1099511627776, -1099511627776, 0],
          [0, 0, 0, mkRat 1 2, 1, 1, 1]⟩ (mkRat 1 2)
      = .ok (0, ⟨3, 1, 1, 2, 1, 2, 3, 2,
          [1099511627776, -1099511627776, 0]⟩) ∧
    ts_bspline_evaluate
        ⟨2, 3, 1, 5, 8, [0, 1099511627776, -131072, -1099511627776, 0],
          [0, 0, 0, mkRat 1 2, mkRat 8388609 16777216, 1, 1, 1]⟩ (mkRat 1 2)
      = .ok (0, ⟨4, 2, 0, 2, 1, 1, 1, 0, [-131072]⟩) ∧
    List.drop 2 [(1099511627776 : ℚ), -1099511627776, 0] = [0] ∧
    List.drop 0 [(-131072 : ℚ)] = [-131072] ∧
    ts_fequals 0 (-131072) = false :=
  ⟨by with_unfolding_all decide, by with_unfolding_all decide,
    by with_unfolding_all rfl, by with_unfolding_all rfl,
    by with_unfolding_all rfl, rfl, rfl, by with_unfolding_all decide⟩

/-- C3 witness: inserting `u = 1/2` once into the spec's example quadratic
produces the Boehm control points `[0, 1, 3/2, 2, 3]` and knot vector
`[0,0,0,1/2,1/2,1,1,1]`. -/
theorem insert_knot_is_boehm_refinement_witness :
    ∃ b', ts_bspline_insert_knot
        ⟨2, 3, 1, 4, 7, [0, 1, 2, 3], [0, 0, 0, mkRat 1 2, 1, 1, 1]⟩
        (mkRat 1 2) 1 = .ok b' ∧
      b'.ctrlp = [0, 1, mkRat 3 2, 2, 3] ∧
      b'.knots = [0, 0, 0, mkRat 1 2, mkRat 1 2, 1, 1, 1] := by
  obtain ⟨b', h1, h2, h3⟩ := insert_knot_is_boehm_refinement
    ⟨2, 3, 1, 4, 7, [0, 1, 2, 3], [0, 0, 0, mkRat 1 2, 1, 1, 1]⟩ (mkRat 1 2)
    (by with_unfolding_all decide) ⟨3, 1, 1, 2, 1, 2, 3, 2, [1, 2, mkRat 3 2]⟩
    (by with_unfolding_all rfl) (by with_unfolding_all decide)
  refine ⟨b', h1, ?_, ?_⟩
  · rw [h2]
    with_unfolding_all rfl
  · rw [h3]
    with_unfolding_all rfl

/-- A success with code 2 pins the scan: the counted multiplicity equals the
order, the break index exceeds the order, and the index `k - s` of the lower
of the two verbatim points is in range with room for its successor. -/
theorem evaluate_ok2_scan (b : tsBSpline) (u : ℚ) (net : tsDeBoorNet)
    (hval : b.valid) (h : ts_bspline_evaluate b u = .ok (2, net)) :
    scanS u b.knots = b.order ∧ b.order + 1 ≤ kstopOf u b.knots ∧
    kstopOf u b.knots - scanS u b.knots < b.n_ctrlp := by
  obtain ⟨hdim, hdegn, hord, hnk, hclen, hklen, hsort⟩ := id hval
  have hsk := scanS_le_kstop u b.knots
  rcases lt_trichotomy (scanS u b.knots) b.order with hs | hs | hs
  · by_cases hw : b.deg + 1 ≤ kstopOf u b.knots ∧
        kstopOf u b.knots - 1 - scanS u b.knots < b.n_ctrlp
    · rw [evaluate_general_case b u hval hs hw.1 hw.2] at h
      rw [Except.ok.injEq, Prod.mk.injEq] at h
      exact absurd h.1 (by norm_num)
    · exfalso
      push_neg at hw
      have hbad : ts_bspline_evaluate b u = .error .TS_U_UNDEFINED := by
        rw [evaluate_undefined_iff]
        refine ⟨hs, ?_⟩
        by_cases hk1 : b.deg + 1 ≤ kstopOf u b.knots
        · right
          have := hw hk1
          omega
        · left
          omega
      rw [hbad] at h
      exact Except.noConfusion h
  · obtain ⟨hb1, hb2, hb3⟩ := evaluate_boundary_case b u hval hs
    rcases Nat.lt_or_ge (scanS u b.knots) (kstopOf u b.knots) with hlt | hge
    · rcases Nat.lt_or_ge (kstopOf u b.knots - scanS u b.knots) b.n_ctrlp
        with hc2 | hc1
      · exact ⟨hs, by omega, hc2⟩
      · rw [hb2 hlt hc1] at h
        rw [Except.ok.injEq, Prod.mk.injEq] at h
        exact absurd h.1 (by norm_num)
    · rw [hb1 (by omega)] at h
      rw [Except.ok.injEq, Prod.mk.injEq] at h
      exact absurd h.1 (by norm_num)
  · exfalso
    have hbad : ts_bspline_evaluate b u = .error .TS_MULTIPLICITY := by
      rw [evaluate_mult_iff]
      omega
    rw [hbad] at h
    exact Except.noConfusion h

/-- Counting argument on the scan: if the counted multiplicity exceeds the
number of scanned indices above `t`, some index at or below `t` was
counted. -/
theorem scanS_exists_le (u : ℚ) (knots : List ℚ) (t : ℕ)
    (h : kstopOf u knots - (t + 1) < scanS u knots) :
    ∃ j, j ≤ t ∧ ts_fequals u (knots.getD j 0) = true := by
  by_contra hc
  push_neg at hc
  rcases le_or_lt (kstopOf u knots) (t + 1) with hK | hK
  · have h0 : ((List.range (kstopOf u knots)).filter
        (fun j => ts_fequals u (knots.getD j 0))) = [] := by
      rw [List.filter_eq_nil_iff]
      intro a ha
      rw [List.mem_range] at ha
      simp only [Bool.not_eq_true]
      exact Bool.not_eq_true _ |>.mp (hc a (by omega))
    have hz : scanS u knots = 0 := by
      unfold scanS
      rw [h0]
      rfl
    omega
  · obtain ⟨d, hd⟩ : ∃ d, kstopOf u knots = (t + 1) + d :=
      ⟨kstopOf u knots - (t + 1), by omega⟩
    have hsp : scanS u knots
        = ((List.range (t + 1)).filter
            (fun j => ts_fequals u (knots.getD j 0))).length
          + (((List.range d).map ((t + 1) + ·)).filter
            (fun j => ts_fequals u (knots.getD j 0))).length := by
      unfold scanS
      rw [hd, List.range_add, List.filter_append, List.length_append]
    have h1 : ((List.range (t + 1)).filter
        (fun j => ts_fequals u (knots.getD j 0))) = [] := by
      rw [List.filter_eq_nil_iff]
      intro a ha
      rw [List.mem_range] at ha
      simp only [Bool.not_eq_true]
      exact Bool.not_eq_true _ |>.mp (hc a (by omega))
    have h2 : (((List.range d).map ((t + 1) + ·)).filter
        (fun j => ts_fequals u (knots.getD j 0))).length ≤ d := by
      calc (((List.range d).map ((t + 1) + ·)).filter
            (fun j => ts_fequals u (knots.getD j 0))).length
          ≤ ((List.range d).map ((t + 1) + ·)).length :=
            List.length_filter_le _ _
        _ = d := by rw [List.length_map, List.length_range]
    rw [hsp, h1] at h
    simp only [List.length_nil, Nat.zero_add] at h
    omega

/-- A scanned knot that is not tolerantly equal to `u` lies at or below
`u`: otherwise the scan would have broken there. -/
theorem scanned_not_feq_le (u : ℚ) (knots : List ℚ) (j : ℕ)
    (hj : j < kstopOf u knots)
    (hne : ts_fequals u (knots.getD j 0) = false) :
    knots.getD j 0 ≤ u := by
  have hb := not_breakAt_of_lt_kstop u knots j hj
  simp only [breakAt, hne, Bool.not_false, Bool.true_and,
    decide_eq_false_iff_not, not_lt] at hb
  exact hb

/-- C9: when evaluation returns the degenerate two-point code 2 (`u` an
internal knot of full multiplicity) and `u` matches neither boundary knot,
`ts_bspline_split` performs a pure index partition with no interpolation:
the left curve receives exactly the first `k - s + 1` original control
points together with the leading original knots, the right curve the
remaining `numControlPoints - (k - s + 1)` control points together with the
trailing knots, all copied verbatim; both counts exceed the degree, so both
sub-curves are well-formed. -/
theorem split_full_multiplicity_partition (b : tsBSpline) (u : ℚ)
    (hval : b.valid) (net : tsDeBoorNet)
    (heval : ts_bspline_evaluate b u = .ok (2, net))
    (hlow : ts_fequals (b.knots.getD b.deg 0) u = false)
    (hhigh : ts_fequals (b.knots.getD (b.n_knots - b.order) 0) u = false) :
    b.deg < (net.k - (net.s : ℤ) + 1).toNat ∧
    (net.k - (net.s : ℤ) + 1).toNat + b.deg < b.n_ctrlp ∧
    ts_bspline_split b u = .ok (0,
      [⟨b.deg, b.deg + 1, b.dim, (net.k - (net.s : ℤ) + 1).toNat,
        (net.k - (net.s : ℤ) + 1).toNat + (b.deg + 1),
        b.ctrlp.take ((net.k - (net.s : ℤ) + 1).toNat * b.dim),
        b.knots.take ((net.k - (net.s : ℤ) + 1).toNat + (b.deg + 1))⟩,
       ⟨b.deg, b.deg + 1, b.dim,
        ((b.n_ctrlp : ℤ) - (net.k - (net.s : ℤ) + 1)).toNat,
        ((b.n_ctrlp : ℤ) - (net.k - (net.s : ℤ) + 1)).toNat + (b.deg + 1),
        (b.ctrlp.drop ((net.k - (net.s : ℤ) + 1).toNat * b.dim)).take
          (((b.n_ctrlp : ℤ) - (net.k - (net.s : ℤ) + 1)).toNat * b.dim),
        (b.knots.drop (b.n_knots -
          (((b.n_ctrlp : ℤ) - (net.k - (net.s : ℤ) + 1)).toNat +
            (b.deg + 1)))).take
          (((b.n_ctrlp : ℤ) - (net.k - (net.s : ℤ) + 1)).toNat +
            (b.deg + 1))⟩]) := by
  obtain ⟨hdim, hdegn, hord, hnk, hclen, hklen, hsort⟩ := id hval
  obtain ⟨hk, hs⟩ := evaluate_ok_k_s b u 2 net heval
  obtain ⟨hso, hko, hkc⟩ := evaluate_ok2_scan b u net hval heval
  have hlow' : ts_fequals u (b.knots.getD b.deg 0) = false :=
    (ts_fequals_comm u _).trans hlow
  have hBeq : b.n_knots - b.order = b.n_ctrlp := by omega
  have hhigh' : ts_fequals u (b.knots.getD b.n_ctrlp 0) = false := by
    rw [hBeq] at hhigh
    exact (ts_fequals_comm u _).trans hhigh
  have hdeglt : b.deg < b.knots.length := by rw [hklen]; omega
  have hBlt : b.n_ctrlp < b.knots.length := by rw [hklen]; omega
  -- the left part holds strictly more than `deg` control points
  have hn0 : b.deg < kstopOf u b.knots - scanS u b.knots := by
    by_contra hcon
    push_neg at hcon
    obtain ⟨j, hj, hfj⟩ := scanS_exists_le u b.knots b.deg (by omega)
    have h1 : b.knots.getD j 0 ≤ b.knots.getD b.deg 0 :=
      sorted_getD_le hsort j b.deg hj hdeglt
    have h2 : b.knots.getD b.deg 0 ≤ u :=
      scanned_not_feq_le u b.knots b.deg (by omega) hlow'
    have h3 := ts_fequals_mono h1 h2 hfj
    rw [hlow'] at h3
    exact Bool.noConfusion h3
  -- the break index stays at or below the upper boundary index
  have hKle : kstopOf u b.knots ≤ b.n_ctrlp := by
    by_contra hcon
    push_neg at hcon
    have hKlen := kstopOf_le_length u b.knots
    rw [hklen] at hKlen
    obtain ⟨j, hj, hfj⟩ := scanS_exists_le u b.knots b.n_ctrlp (by omega)
    have h1 : b.knots.getD j 0 ≤ b.knots.getD b.n_ctrlp 0 :=
      sorted_getD_le hsort j b.n_ctrlp hj hBlt
    have h2 : b.knots.getD b.n_ctrlp 0 ≤ u :=
      scanned_not_feq_le u b.knots b.n_ctrlp (by omega) hhigh'
    have h3 := ts_fequals_mono h1 h2 hfj
    rw [hhigh'] at h3
    exact Bool.noConfusion h3
  have hn1 : kstopOf u b.knots - scanS u b.knots + b.deg < b.n_ctrlp := by
    omega
  have htn0 : (net.k - (net.s : ℤ) + 1).toNat
      = kstopOf u b.knots - scanS u b.knots := by
    rw [hk, hs]
    omega
  refine ⟨by rw [htn0]; exact hn0, by rw [htn0]; exact hn1, ?_⟩
  simp only [ts_bspline_split, heval]
  have hbd : ¬(ts_fequals (b.knots.getD b.deg 0) u = true ∨
      ts_fequals (b.knots.getD (b.n_knots - b.order) 0) u = true) := by
    rintro (hx | hx)
    · rw [hlow] at hx
      exact Bool.noConfusion hx
    · rw [hhigh] at hx
      exact Bool.noConfusion hx
  rw [if_neg hbd, if_neg (by norm_num), if_neg (by norm_num)]
  have hc1 : ¬(net.k - (net.s : ℤ) + 1 ≤ (b.deg : ℤ)) := by
    rw [hk, hs]
    omega
  have hc2 : ¬((b.n_ctrlp : ℤ) - (net.k - (net.s : ℤ) + 1) ≤ (b.deg : ℤ)) := by
    rw [hk, hs]
    omega
  rw [if_neg (by omega : ¬ b.dim < 1), if_neg hc1, if_neg hc2]

/-- C9 witness: splitting the clamped quadratic over
`[0,0,0,1/2,1/2,1/2,1,1,1]` at the full-multiplicity internal knot `1/2`
partitions it into `[0,1,2]` over `[0,0,0,1/2,1/2,1/2]` and `[3,4,5]` over
`[1/2,1/2,1/2,1,1,1]`, verbatim. -/
theorem split_full_multiplicity_partition_witness :
    ts_bspline_split
        ⟨2, 3, 1, 6, 9, [0, 1, 2, 3, 4, 5],
          [0, 0, 0, mkRat 1 2, mkRat 1 2, mkRat 1 2, 1, 1, 1]⟩ (mkRat 1 2)
      = .ok (0,
        [⟨2, 3, 1, 3, 6, [0, 1, 2],
          [0, 0, 0, mkRat 1 2, mkRat 1 2, mkRat 1 2]⟩,
         ⟨2, 3, 1, 3, 6, [3, 4, 5],
          [mkRat 1 2, mkRat 1 2, mkRat 1 2, 1, 1, 1]⟩]) := by
  have h := split_full_multiplicity_partition
    ⟨2, 3, 1, 6, 9, [0, 1, 2, 3, 4, 5],
      [0, 0, 0, mkRat 1 2, mkRat 1 2, mkRat 1 2, 1, 1, 1]⟩ (mkRat 1 2)
    (by with_unfolding_all decide) ⟨5, 3, -1, 2, 1, 2, 2, 1, [2, 3]⟩
    (by with_unfolding_all rfl) (by with_unfolding_all decide)
    (by with_unfolding_all decide)
  rw [h.2.2]
  with_unfolding_all rfl
